import Mathlib

/-!
Verification of the phoneme decoding & alignment engine
(`backend/app/services/phoneme_converter.py`, `scorer.py`, `recognizer.py`).

Conventions of the embedding:
* Python strings are `String`/`List Char`; lists are `List`.
* All probability bookkeeping of the recognizer is done in *probability
  space* with exact rationals: a log-probability `x` of the Python code is
  represented by its exponential `exp x : ℚ≥0`; `logaddexp` becomes `+`,
  adding log-probabilities becomes `*`, `-inf` becomes `0`, and all
  comparisons are preserved because `exp` is strictly monotone.  This is the
  standard exact-arithmetic idealization of the floating-point code.
* Fallible operations (places where the Python code would raise) are
  modelled with `Option`, `none` standing for an exception / NaN outcome.
-/

namespace Phonem

/-! ## Phoneme normalizer (`phoneme_converter.normalize_ipa_sequence`) -/

/-- The characters removed by `re.sub(r"[ˈˌː' \-.]", "", full_str)`:
primary/secondary stress, length mark, apostrophe, space, hyphen, period. -/
def strippedMarks : List Char := ['ˈ', 'ˌ', 'ː', '\'', ' ', '-', '.']

/-- Python's notion of whitespace used by `str.strip()` / `str.isspace()`
(the Unicode whitespace codepoints recognized by CPython). -/
def pyIsSpace (c : Char) : Bool :=
  let n := c.toNat
  (0x09 ≤ n && n ≤ 0x0D) || (0x1C ≤ n && n ≤ 0x1F) || n == 0x20 || n == 0x85 ||
    n == 0xA0 || n == 0x1680 || (0x2000 ≤ n && n ≤ 0x200A) || n == 0x2028 ||
    n == 0x2029 || n == 0x202F || n == 0x205F || n == 0x3000

/-- Step 3 of the normalizer: `full_str.replace("g", "ɡ")`, per character. -/
def gFix (c : Char) : Char := if c = 'g' then 'ɡ' else c

/-- The character-level pipeline of `normalize_ipa_sequence`: remove the
stripped marks, canonicalize `g` to `ɡ`, and drop whitespace-only symbols
(`[s for s in symbols if s.strip()]`). -/
def normalizeChars (cs : List Char) : List Char :=
  ((cs.filter (fun c => !(strippedMarks.contains c))).map gFix).filter
    (fun c => !(pyIsSpace c))

/-- `normalize_ipa_sequence(ipa_list)`: join all tokens into one string,
clean it up and split into atomic one-character symbols. -/
def normalize_ipa_sequence (ipa_list : List String) : List String :=
  (normalizeChars (ipa_list.flatMap String.toList)).map (fun c => String.singleton c)

theorem gFix_ne_g (c : Char) : gFix c ≠ 'g' := by
  unfold gFix
  split
  · decide
  · next h => exact h

theorem gFix_marks {c : Char} (h : strippedMarks.contains c = false) :
    strippedMarks.contains (gFix c) = false := by
  unfold gFix
  split
  · decide
  · exact h

theorem mem_normalizeChars {cs : List Char} {c : Char} (h : c ∈ normalizeChars cs) :
    strippedMarks.contains c = false ∧ c ≠ 'g' ∧ pyIsSpace c = false := by
  unfold normalizeChars at h
  rcases List.mem_filter.mp h with ⟨h1, h2⟩
  rcases List.mem_map.mp h1 with ⟨c', hc', rfl⟩
  rcases List.mem_filter.mp hc' with ⟨_, h4⟩
  have h4' : strippedMarks.contains c' = false := by
    cases hb : strippedMarks.contains c' with
    | false => rfl
    | true => rw [hb] at h4; exact absurd h4 (by decide)
  have h2' : pyIsSpace (gFix c') = false := by
    cases hb : pyIsSpace (gFix c') with
    | false => rfl
    | true => rw [hb] at h2; exact absurd h2 (by decide)
  exact ⟨gFix_marks h4', gFix_ne_g c', h2'⟩

theorem normalizeChars_eq_self {cs : List Char}
    (h : ∀ c ∈ cs, strippedMarks.contains c = false ∧ c ≠ 'g' ∧ pyIsSpace c = false) :
    normalizeChars cs = cs := by
  unfold normalizeChars
  have h1 : cs.filter (fun c => !(strippedMarks.contains c)) = cs :=
    List.filter_eq_self.mpr (fun c hc => by
      show (!(strippedMarks.contains c)) = true
      rw [(h c hc).1]
      rfl)
  rw [h1]
  have h2 : cs.map gFix = cs := by
    conv_rhs => rw [← List.map_id cs]
    exact List.map_congr_left (fun c hc => by
      show gFix c = id c
      unfold gFix
      simp [(h c hc).2.1])
  rw [h2]
  exact List.filter_eq_self.mpr (fun c hc => by
    show (!(pyIsSpace c)) = true
    rw [(h c hc).2.2]
    rfl)

theorem toList_singleton (c : Char) : (String.singleton c).toList = [c] := rfl

theorem flatMap_toList_singleton (cs : List Char) :
    (cs.map (fun c => String.singleton c)).flatMap String.toList = cs := by
  induction cs with
  | nil => rfl
  | cons c cs ih => simp [List.flatMap_cons, toList_singleton, ih]

/-- Claim C8: the phoneme normalizer is idempotent — for every input list of
raw symbol strings `x`, `normalize_ipa_sequence (normalize_ipa_sequence x) =
normalize_ipa_sequence x`. -/
theorem normalize_ipa_sequence_idempotent (x : List String) :
    normalize_ipa_sequence (normalize_ipa_sequence x) = normalize_ipa_sequence x := by
  unfold normalize_ipa_sequence
  rw [flatMap_toList_singleton]
  rw [normalizeChars_eq_self (fun c hc => mem_normalizeChars hc)]

/-- Claim C10: every symbol output by the normalizer is a single-character
string whose character is not whitespace, is not the ASCII letter `g`, and is
none of the stripped marks `ˈ ˌ ː ' ␣ - .` — the output-alphabet invariant
of `normalize_ipa_sequence`. -/
theorem normalize_ipa_sequence_output_alphabet (x : List String) (s : String)
    (hs : s ∈ normalize_ipa_sequence x) :
    ∃ c : Char, s = String.singleton c ∧ s.length = 1 ∧
      pyIsSpace c = false ∧ c ≠ 'g' ∧ strippedMarks.contains c = false := by
  unfold normalize_ipa_sequence at hs
  rcases List.mem_map.mp hs with ⟨c, hc, rfl⟩
  rcases mem_normalizeChars hc with ⟨h1, h2, h3⟩
  exact ⟨c, rfl, rfl, h3, h2, h1⟩

/-- Witness for C10 at a concrete input: `["kˈæt"]` normalizes to symbols
satisfying the invariant; we instantiate the theorem at its first symbol. -/
theorem normalize_ipa_sequence_output_alphabet_witness :
    ("k" ∈ normalize_ipa_sequence ["kˈæt"]) ∧
      ∃ c : Char, "k" = String.singleton c ∧ "k".length = 1 ∧
        pyIsSpace c = false ∧ c ≠ 'g' ∧ strippedMarks.contains c = false :=
  ⟨by decide, normalize_ipa_sequence_output_alphabet ["kˈæt"] "k" (by decide)⟩

/-! ## difflib.SequenceMatcher embedding (used by `ScorerService.compare_phonemes`)

`scorer.py` calls `difflib.SequenceMatcher(None, ref_phonemes, user_phonemes)`
with the default `autojunk=True` and no junk predicate, so `bjunk` is always
empty and the only junk-like mechanism is the "popular element" heuristic
(elements of `b` occurring more than `len(b)//100 + 1` times when
`len(b) >= 200` are dropped from the `b2j` index).  The definitions below are
a line-by-line translation of CPython's `difflib.py` specialized to that
configuration (the two `isbjunk` while-loops of `find_longest_match` can
never fire and are omitted). -/

section Difflib

variable {α : Type} [DecidableEq α]

/-- Indices of occurrences of `x` in `b`, ascending (the `b2j` entry before
popularity filtering). -/
def positions (b : List α) (x : α) : List ℕ :=
  (List.range b.length).filter (fun j => b[j]? = some x)

/-- The autojunk "popular" test of `SequenceMatcher.__chain_b`. -/
def isPopular (b : List α) (x : α) : Bool :=
  decide (200 ≤ b.length) && decide (b.length / 100 + 1 < (positions b x).length)

/-- `b2j[x]` after autojunk filtering: popular elements are removed. -/
def b2j (b : List α) (x : α) : List ℕ :=
  if isPopular b x then [] else positions b x

/-- Running state of `find_longest_match`'s main loop. -/
structure FlmState where
  besti : ℕ
  bestj : ℕ
  bestsize : ℕ
  j2len : List (ℕ × ℕ)
  deriving DecidableEq

/-- `j2len.get(j, 0)`. -/
def j2get (m : List (ℕ × ℕ)) (j : ℕ) : ℕ :=
  (((m.find? (fun p => p.1 == j)).map Prod.snd)).getD 0

/-- One iteration of the inner `for j in b2j[a[i]]` loop: `old` is the
`j2len` snapshot from the previous row; chains extend by one and the best
block is updated on a strict improvement (`k > bestsize`).  `i + 1 - k`
encodes Python's `i - k + 1` (nonnegative whenever the chain fits, which the
invariants below establish). -/
def innerStep (i : ℕ) (old : List (ℕ × ℕ)) (st : FlmState) (j : ℕ) : FlmState :=
  let k := if j = 0 then 1 else j2get old (j - 1) + 1
  let st' := { st with j2len := st.j2len ++ [(j, k)] }
  if st'.bestsize < k then
    { st' with besti := i + 1 - k, bestj := j + 1 - k, bestsize := k }
  else st'

/-- One iteration of the outer `for i in range(alo, ahi)` loop.  The
`j < blo` `continue` / `j >= bhi` `break` of Python is a filter because the
index lists are ascending. -/
def rowStep (a : List α) (b2jf : α → List ℕ) (blo bhi : ℕ)
    (st : FlmState) (i : ℕ) : FlmState :=
  let js := (match a[i]? with
    | some x => b2jf x
    | none => []).filter (fun j => decide (blo ≤ j) && decide (j < bhi))
  js.foldl (innerStep i st.j2len) { st with j2len := [] }

/-- The main loop of `find_longest_match` over rows `alo..ahi-1`. -/
def flmMain (a : List α) (b2jf : α → List ℕ) (alo ahi blo bhi : ℕ) : FlmState :=
  (List.range' alo (ahi - alo)).foldl (rowStep a b2jf blo bhi)
    { besti := alo, bestj := blo, bestsize := 0, j2len := [] }

/-- The left extension loop (`while besti > alo and bestj > blo and
a[besti-1] == b[bestj-1]`); fuel-bounded, the fuel is the current `besti`
which strictly dominates the possible number of iterations. -/
def extendLeftGo (a b : List α) (alo blo : ℕ) :
    ℕ → ℕ × ℕ × ℕ → ℕ × ℕ × ℕ
  | 0, s => s
  | fuel + 1, (i, j, k) =>
    if alo < i ∧ blo < j ∧ a[i - 1]? = b[j - 1]? ∧ (a[i - 1]?).isSome then
      extendLeftGo a b alo blo fuel (i - 1, j - 1, k + 1)
    else (i, j, k)

/-- The right extension loop (`while besti+bestsize < ahi and bestj+bestsize
< bhi and a[besti+bestsize] == b[bestj+bestsize]`), fuel-bounded. -/
def extendRightGo (a b : List α) (ahi bhi : ℕ) :
    ℕ → ℕ × ℕ × ℕ → ℕ × ℕ × ℕ
  | 0, s => s
  | fuel + 1, (i, j, k) =>
    if i + k < ahi ∧ j + k < bhi ∧ a[i + k]? = b[j + k]? ∧ (a[i + k]?).isSome then
      extendRightGo a b ahi bhi fuel (i, j, k + 1)
    else (i, j, k)

/-- `find_longest_match(alo, ahi, blo, bhi)` on sequences `a`, `b`. -/
def findLongestMatch (a b : List α) (alo ahi blo bhi : ℕ) : ℕ × ℕ × ℕ :=
  let st := flmMain a (b2j b) alo ahi blo bhi
  let s1 := extendLeftGo a b alo blo st.besti (st.besti, st.bestj, st.bestsize)
  extendRightGo a b ahi bhi ahi s1

/-- Well-formedness of a `j2len` table after `t` processed rows: every chain
has positive length, fits above `blo`, is no longer than the number of
processed rows, and ends below `bhi`. -/
def J2Ok (blo bhi t : ℕ) (m : List (ℕ × ℕ)) : Prop :=
  ∀ p ∈ m, 1 ≤ p.2 ∧ blo + p.2 ≤ p.1 + 1 ∧ p.2 ≤ t ∧ p.1 < bhi

/-- Well-formedness of the best block found so far (`hi` bounds
`besti + bestsize`). -/
def BestOk (alo blo bhi hi : ℕ) (st : FlmState) : Prop :=
  (st.bestsize ≠ 0 → alo ≤ st.besti ∧ blo ≤ st.bestj ∧
      st.besti + st.bestsize ≤ hi ∧ st.bestj + st.bestsize ≤ bhi) ∧
  (st.bestsize = 0 → st.besti = alo ∧ st.bestj = blo)

theorem j2get_cases (m : List (ℕ × ℕ)) (j : ℕ) :
    j2get m j = 0 ∨ (j, j2get m j) ∈ m := by
  unfold j2get
  cases hf : m.find? (fun p => p.1 == j) with
  | none => exact Or.inl rfl
  | some p =>
    right
    have hmem := List.mem_of_find?_eq_some hf
    have hp : p.1 = j := by simpa using List.find?_some hf
    have hpe : (j, p.2) = p := by rw [← hp]
    simpa [hpe] using hmem

theorem BestOk.mono {alo blo bhi hi hi' : ℕ} {st : FlmState}
    (h : BestOk alo blo bhi hi st) (hle : hi ≤ hi') : BestOk alo blo bhi hi' st :=
  ⟨fun hz => ⟨(h.1 hz).1, (h.1 hz).2.1, le_trans (h.1 hz).2.2.1 hle, (h.1 hz).2.2.2⟩, h.2⟩

theorem chainVal_bounds {blo bhi t : ℕ} {old : List (ℕ × ℕ)} {j : ℕ}
    (hold : J2Ok blo bhi t old) (hjlo : blo ≤ j) :
    1 ≤ (if j = 0 then 1 else j2get old (j - 1) + 1) ∧
      blo + (if j = 0 then 1 else j2get old (j - 1) + 1) ≤ j + 1 ∧
      (if j = 0 then 1 else j2get old (j - 1) + 1) ≤ t + 1 := by
  by_cases hj0 : j = 0
  · rw [if_pos hj0]; omega
  · rw [if_neg hj0]
    rcases j2get_cases old (j - 1) with hz | hmem
    · rw [hz]; omega
    · have := hold _ hmem
      simp only at this
      omega

theorem innerStep_inv {alo blo bhi t : ℕ} {old : List (ℕ × ℕ)} {st : FlmState} {i j : ℕ}
    (hold : J2Ok blo bhi t old) (hst : J2Ok blo bhi (t + 1) st.j2len)
    (hbest : BestOk alo blo bhi (i + 1) st)
    (hi : i = alo + t) (hjlo : blo ≤ j) (hjhi : j < bhi) :
    J2Ok blo bhi (t + 1) (innerStep i old st j).j2len ∧
      BestOk alo blo bhi (i + 1) (innerStep i old st j) := by
  have hkb := chainVal_bounds (t := t) (j := j) hold hjlo
  unfold innerStep
  generalize hkg : (if j = 0 then 1 else j2get old (j - 1) + 1) = k at hkb ⊢
  dsimp only
  have hstj : J2Ok blo bhi (t + 1) (st.j2len ++ [(j, k)]) := by
    intro p hp
    rcases List.mem_append.mp hp with hp | hp
    · exact hst p hp
    · have : p = (j, k) := by simpa using hp
      subst this
      exact ⟨hkb.1, hkb.2.1, hkb.2.2, hjhi⟩
  by_cases hlt : st.bestsize < k
  · rw [if_pos hlt]
    refine ⟨hstj, ?_, ?_⟩
    · intro _
      dsimp only
      refine ⟨?_, ?_, ?_, ?_⟩ <;> omega
    · intro h0
      dsimp only at h0
      omega
  · rw [if_neg hlt]
    exact ⟨hstj, hbest⟩

theorem foldl_innerStep_inv {alo blo bhi t i : ℕ} {old : List (ℕ × ℕ)}
    (hold : J2Ok blo bhi t old) (hi : i = alo + t) :
    ∀ (js : List ℕ) (st : FlmState),
      (∀ j ∈ js, blo ≤ j ∧ j < bhi) →
      J2Ok blo bhi (t + 1) st.j2len → BestOk alo blo bhi (i + 1) st →
      J2Ok blo bhi (t + 1) (js.foldl (innerStep i old) st).j2len ∧
        BestOk alo blo bhi (i + 1) (js.foldl (innerStep i old) st) := by
  intro js
  induction js with
  | nil => intro st _ h1 h2; exact ⟨h1, h2⟩
  | cons j js ih =>
    intro st hjs h1 h2
    have hj := hjs j (List.mem_cons_self j js)
    have hstep := innerStep_inv hold h1 h2 hi hj.1 hj.2
    exact ih _ (fun j' hj' => hjs j' (List.mem_cons_of_mem j hj')) hstep.1 hstep.2

theorem rowStep_inv {α : Type} [DecidableEq α] {a : List α} {f : α → List ℕ}
    {alo blo bhi t : ℕ} {st : FlmState}
    (h1 : J2Ok blo bhi t st.j2len) (h2 : BestOk alo blo bhi (alo + t) st) :
    J2Ok blo bhi (t + 1) (rowStep a f blo bhi st (alo + t)).j2len ∧
      BestOk alo blo bhi (alo + t + 1) (rowStep a f blo bhi st (alo + t)) := by
  unfold rowStep
  apply foldl_innerStep_inv h1 rfl
  · intro j hj
    have := List.of_mem_filter hj
    constructor
    · exact Nat.le_of_ble_eq_true (by simpa using (Bool.and_elim_left this))
    · have := Bool.and_elim_right this
      simpa using this
  · intro p hp
    exact absurd hp (List.not_mem_nil p)
  · exact h2.mono (Nat.le_succ _)

theorem flmMain_inv {α : Type} [DecidableEq α] (a : List α) (b2jf : α → List ℕ)
    (alo blo bhi : ℕ) :
    ∀ cnt, BestOk alo blo bhi (alo + cnt)
      ((List.range' alo cnt).foldl (rowStep a b2jf blo bhi)
        { besti := alo, bestj := blo, bestsize := 0, j2len := [] }) ∧
      J2Ok blo bhi cnt
        ((List.range' alo cnt).foldl (rowStep a b2jf blo bhi)
          { besti := alo, bestj := blo, bestsize := 0, j2len := [] }).j2len := by
  intro cnt
  induction cnt with
  | zero =>
    constructor
    · exact ⟨fun h => absurd rfl h, fun _ => ⟨rfl, rfl⟩⟩
    · intro p hp; exact absurd hp (List.not_mem_nil p)
  | succ n ih =>
    rw [List.range'_concat, List.foldl_append]
    simp only [List.foldl_cons, List.foldl_nil, one_mul]
    have := rowStep_inv (a := a) (f := b2jf) ih.2 ih.1
    exact ⟨by rw [← Nat.add_assoc]; exact this.2, this.1⟩

theorem extendLeftGo_inv {α : Type} [DecidableEq α] (a b : List α) (alo blo : ℕ) :
    ∀ (fuel i j k : ℕ), alo ≤ i → blo ≤ j →
      alo ≤ (extendLeftGo a b alo blo fuel (i, j, k)).1 ∧
      blo ≤ (extendLeftGo a b alo blo fuel (i, j, k)).2.1 ∧
      (extendLeftGo a b alo blo fuel (i, j, k)).1 +
        (extendLeftGo a b alo blo fuel (i, j, k)).2.2 = i + k ∧
      (extendLeftGo a b alo blo fuel (i, j, k)).2.1 +
        (extendLeftGo a b alo blo fuel (i, j, k)).2.2 = j + k ∧
      k ≤ (extendLeftGo a b alo blo fuel (i, j, k)).2.2 := by
  intro fuel
  induction fuel with
  | zero => intro i j k h1 h2; exact ⟨h1, h2, rfl, rfl, le_refl k⟩
  | succ n ih =>
    intro i j k h1 h2
    unfold extendLeftGo
    split
    · next hcond =>
      have := ih (i - 1) (j - 1) (k + 1) (by omega) (by omega)
      refine ⟨this.1, this.2.1, ?_, ?_, ?_⟩ <;> omega
    · exact ⟨h1, h2, rfl, rfl, le_refl k⟩

theorem extendRightGo_inv {α : Type} [DecidableEq α] (a b : List α) (ahi bhi : ℕ) :
    ∀ (fuel i j k : ℕ),
      (extendRightGo a b ahi bhi fuel (i, j, k)).1 = i ∧
      (extendRightGo a b ahi bhi fuel (i, j, k)).2.1 = j ∧
      k ≤ (extendRightGo a b ahi bhi fuel (i, j, k)).2.2 ∧
      (k < (extendRightGo a b ahi bhi fuel (i, j, k)).2.2 →
        i + (extendRightGo a b ahi bhi fuel (i, j, k)).2.2 ≤ ahi ∧
        j + (extendRightGo a b ahi bhi fuel (i, j, k)).2.2 ≤ bhi) := by
  intro fuel
  induction fuel with
  | zero => intro i j k; exact ⟨rfl, rfl, le_refl k, fun h => absurd h (lt_irrefl k)⟩
  | succ n ih =>
    intro i j k
    unfold extendRightGo
    split
    · next hcond =>
      have := ih i j (k + 1)
      refine ⟨this.1, this.2.1, by omega, ?_⟩
      intro _
      rcases Nat.lt_or_ge (k + 1) (extendRightGo a b ahi bhi n (i, j, k + 1)).2.2 with h | h
      · exact this.2.2.2 h
      · have he : (extendRightGo a b ahi bhi n (i, j, k + 1)).2.2 = k + 1 := le_antisymm h this.2.2.1
        rw [he]
        omega
    · exact ⟨rfl, rfl, le_refl k, fun hlt => absurd hlt (lt_irrefl k)⟩

theorem extendLeftGo_at_floor {α : Type} [DecidableEq α] (a b : List α) (alo blo : ℕ) :
    ∀ (fuel j k : ℕ), extendLeftGo a b alo blo fuel (alo, j, k) = (alo, j, k) := by
  intro fuel j k
  cases fuel with
  | zero => rfl
  | succ n =>
    unfold extendLeftGo
    rw [if_neg]
    intro h
    exact absurd h.1 (lt_irrefl alo)

/-- Position bounds of `find_longest_match`'s result, needed for the
termination and ordering of the recursive block decomposition. -/
theorem flm_bounds {α : Type} [DecidableEq α] (a b : List α) (alo ahi blo bhi : ℕ) :
    alo ≤ (findLongestMatch a b alo ahi blo bhi).1 ∧
    blo ≤ (findLongestMatch a b alo ahi blo bhi).2.1 ∧
    ((findLongestMatch a b alo ahi blo bhi).2.2 ≠ 0 →
      (findLongestMatch a b alo ahi blo bhi).1 +
        (findLongestMatch a b alo ahi blo bhi).2.2 ≤ ahi ∧
      (findLongestMatch a b alo ahi blo bhi).2.1 +
        (findLongestMatch a b alo ahi blo bhi).2.2 ≤ bhi) := by
  unfold findLongestMatch flmMain
  have hmain := flmMain_inv a (b2j b) alo blo bhi (ahi - alo)
  set st := (List.range' alo (ahi - alo)).foldl (rowStep a (b2j b) blo bhi)
    { besti := alo, bestj := blo, bestsize := 0, j2len := [] } with hst
  have hb : alo ≤ st.besti ∧ blo ≤ st.bestj ∧
      (st.bestsize ≠ 0 → st.besti + st.bestsize ≤ ahi ∧ st.bestj + st.bestsize ≤ bhi) := by
    by_cases hz : st.bestsize = 0
    · have := hmain.1.2 hz
      exact ⟨le_of_eq this.1.symm, le_of_eq this.2.symm, fun h => absurd hz h⟩
    · have := hmain.1.1 hz
      refine ⟨this.1, this.2.1, fun _ => ⟨?_, this.2.2.2⟩⟩
      calc st.besti + st.bestsize ≤ alo + (ahi - alo) := this.2.2.1
        _ ≤ max alo ahi := by omega
        _ ≤ ahi := by
          rcases Nat.le_total alo ahi with h | h
          · omega
          · -- if ahi < alo the range is empty and bestsize = 0, contradiction
            have : ahi - alo = 0 := by omega
            rw [this] at hst
            simp only [List.range', List.foldl_nil] at hst
            rw [hst] at hz
            exact absurd rfl hz
  have hL := extendLeftGo_inv a b alo blo st.besti st.besti st.bestj st.bestsize hb.1 hb.2.1
  set sL := extendLeftGo a b alo blo st.besti (st.besti, st.bestj, st.bestsize) with hsL
  have hR := extendRightGo_inv a b ahi bhi ahi sL.1 sL.2.1 sL.2.2
  simp only [Prod.mk.eta] at hR
  set sR := extendRightGo a b ahi bhi ahi sL with hsR
  refine ⟨by rw [hR.1]; exact hL.1, by rw [hR.2.1]; exact hL.2.1, ?_⟩
  intro hkz
  rcases Nat.lt_or_ge sL.2.2 sR.2.2 with hlt | hge
  · have := hR.2.2.2 hlt
    rw [hR.1, hR.2.1]
    exact this
  · have he : sR.2.2 = sL.2.2 := le_antisymm hge hR.2.2.1
    have hz : st.bestsize ≠ 0 := by
      intro h0
      apply hkz
      have hbz := hmain.1.2 h0
      have hsL0 : sL = (alo, st.bestj, st.bestsize) := by
        rw [hsL, hbz.1]
        exact extendLeftGo_at_floor a b alo blo alo st.bestj st.bestsize
      rw [he, hsL0, h0]
    have hbb := hb.2.2 hz
    rw [hR.1, hR.2.1, he]
    constructor
    · rw [hL.2.2.1]; exact hbb.1
    · rw [hL.2.2.2.1]; exact hbb.2

/-- The recursive block decomposition of `get_matching_blocks` (the Python
code uses an explicit LIFO queue and sorts the collected blocks afterwards;
since the blocks of the two sub-regions are strictly separated in both
coordinates, that is the same as this in-order recursion).  The recursion is
fuel-based so that it is structural; `mbAux_congr` below shows the result
does not depend on the fuel once the fuel exceeds the region measure, which
by `flm_bounds` strictly decreases at every recursive call. -/
def mbAux (a b : List α) : ℕ → ℕ → ℕ → ℕ → ℕ → List (ℕ × ℕ × ℕ)
  | 0, _, _, _, _ => []
  | fuel + 1, alo, ahi, blo, bhi =>
    match findLongestMatch a b alo ahi blo bhi with
    | (bi, bj, bk) =>
      if bk = 0 then []
      else
        (if alo < bi ∧ blo < bj then mbAux a b fuel alo bi blo bj else []) ++
          ((bi, bj, bk) :: (if bi + bk < ahi ∧ bj + bk < bhi then
            mbAux a b fuel (bi + bk) ahi (bj + bk) bhi else []))

/-- The recursive block decomposition, with just enough fuel. -/
def matchingBlocksAux (a b : List α) (alo ahi blo bhi : ℕ) : List (ℕ × ℕ × ℕ) :=
  mbAux a b ((ahi - alo) + (bhi - blo) + 1) alo ahi blo bhi

theorem mbAux_congr (a b : List α) : ∀ fuel fuel' alo ahi blo bhi,
    (ahi - alo) + (bhi - blo) < fuel → (ahi - alo) + (bhi - blo) < fuel' →
    mbAux a b fuel alo ahi blo bhi = mbAux a b fuel' alo ahi blo bhi := by
  intro fuel
  induction fuel with
  | zero => intro fuel' alo ahi blo bhi hm; omega
  | succ n ih =>
    intro fuel' alo ahi blo bhi hm hm'
    cases fuel' with
    | zero => omega
    | succ n' =>
      show mbAux a b (n + 1) alo ahi blo bhi = mbAux a b (n' + 1) alo ahi blo bhi
      unfold mbAux
      cases hfm : findLongestMatch a b alo ahi blo bhi with
      | mk bi rest =>
        obtain ⟨bj, bk⟩ := rest
        by_cases hk : bk = 0
        · simp only [hk, if_pos]
        · have hb := flm_bounds a b alo ahi blo bhi
          rw [hfm] at hb
          dsimp only at hb
          have hbb := hb.2.2 hk
          simp only [hk, if_neg, if_false]
          congr 1
          · by_cases hc : alo < bi ∧ blo < bj
            · simp only [hc, if_pos]
              exact ih n' alo bi blo bj (by omega) (by omega)
            · simp only [hc, if_neg, if_false]
          · congr 1
            by_cases hc : bi + bk < ahi ∧ bj + bk < bhi
            · simp only [hc, if_pos]
              exact ih n' (bi + bk) ahi (bj + bk) bhi (by omega) (by omega)
            · simp only [hc, if_neg, if_false]

/-- The adjacent-block merging loop at the end of `get_matching_blocks`. -/
def mergeBlocksGo : ℕ × ℕ × ℕ → List (ℕ × ℕ × ℕ) → List (ℕ × ℕ × ℕ)
  | (i1, j1, k1), [] => if k1 ≠ 0 then [(i1, j1, k1)] else []
  | (i1, j1, k1), (i2, j2, k2) :: rest =>
    if i1 + k1 = i2 ∧ j1 + k1 = j2 then mergeBlocksGo (i1, j1, k1 + k2) rest
    else (if k1 ≠ 0 then [(i1, j1, k1)] else []) ++ mergeBlocksGo (i2, j2, k2) rest

/-- `get_matching_blocks()`: recursive decomposition, adjacent merging, and
the `(la, lb, 0)` sentinel. -/
def getMatchingBlocks (a b : List α) : List (ℕ × ℕ × ℕ) :=
  mergeBlocksGo (0, 0, 0) (matchingBlocksAux a b 0 a.length 0 b.length) ++
    [(a.length, b.length, 0)]

/-- Opcode tags of `SequenceMatcher.get_opcodes`. -/
inductive OpTag
  | equal
  | replace
  | delete
  | insert
  deriving DecidableEq

/-- The opcode-building loop of `get_opcodes` with its running cursor. -/
def opcodesGo : ℕ → ℕ → List (ℕ × ℕ × ℕ) → List (OpTag × ℕ × ℕ × ℕ × ℕ)
  | _, _, [] => []
  | i, j, (ai, bj, size) :: rest =>
    (if i < ai ∧ j < bj then [(OpTag.replace, i, ai, j, bj)]
      else if i < ai then [(OpTag.delete, i, ai, j, bj)]
      else if j < bj then [(OpTag.insert, i, ai, j, bj)]
      else []) ++
    (if size ≠ 0 then [(OpTag.equal, ai, ai + size, bj, bj + size)] else []) ++
    opcodesGo (ai + size) (bj + size) rest

/-- `get_opcodes()` on sequences `a`, `b`. -/
def getOpcodes (a b : List α) : List (OpTag × ℕ × ℕ × ℕ × ℕ) :=
  opcodesGo 0 0 (getMatchingBlocks a b)

/-- Total number of matched elements: `sum(k for (_, _, k) in blocks)`. -/
def matchesCount (a b : List α) : ℕ :=
  ((getMatchingBlocks a b).map (fun t => t.2.2)).sum

/-- `SequenceMatcher.ratio()`: `2·M/(la+lb)`, defined as 1 when both
sequences are empty (`_calculate_ratio`). -/
def ratioQ (a b : List α) : ℚ :=
  if a.length + b.length = 0 then 1
  else (2 * matchesCount a b : ℚ) / (a.length + b.length : ℚ)

end Difflib

/-! ## Alignment scorer (`ScorerService.compare_phonemes`) -/

/-- Status values of the per-symbol diagnostic ops emitted by the scorer. -/
inductive OpStatus
  | matched
  | substitution
  | missing
  | insertion
  deriving DecidableEq

/-- One entry of the `details` list:
`{"phoneme": ..., "status": ..., "user": ...}` (empty string for an absent
side). -/
structure AlignOp where
  phoneme : String
  status : OpStatus
  user : String
  deriving DecidableEq

/-- Result of `compare_phonemes`: `{"score": ..., "details": ...}`. -/
structure ScoreResult where
  score : ℕ
  details : List AlignOp
  deriving DecidableEq

/-- The details emitted for a single opcode, following the four branches of
the scorer's loop. -/
def detailsOfOpcode (ref user : List String) : OpTag × ℕ × ℕ × ℕ × ℕ → List AlignOp
  | (OpTag.equal, i1, i2, j1, _) =>
    (List.range (i2 - i1)).map (fun k =>
      { phoneme := ref.getD (i1 + k) "", status := OpStatus.matched,
        user := user.getD (j1 + k) "" })
  | (OpTag.replace, i1, i2, j1, j2) =>
    (List.range (max (i2 - i1) (j2 - j1))).map (fun k =>
      { phoneme := if k < i2 - i1 then ref.getD (i1 + k) "" else "",
        status := OpStatus.substitution,
        user := if k < j2 - j1 then user.getD (j1 + k) "" else "" })
  | (OpTag.delete, i1, i2, _, _) =>
    (List.range (i2 - i1)).map (fun k =>
      { phoneme := ref.getD (i1 + k) "", status := OpStatus.missing, user := "" })
  | (OpTag.insert, _, _, j1, j2) =>
    (List.range (j2 - j1)).map (fun k =>
      { phoneme := "", status := OpStatus.insertion, user := user.getD (j1 + k) "" })

/-- `ScorerService.compare_phonemes(ref_phonemes, user_phonemes)`.
`int(ratio * 100)` is modelled as the floor of the exact rational
`ratio * 100` (`ratio` is nonnegative, so Python's truncation is a floor). -/
def compare_phonemes (ref_phonemes user_phonemes : List String) : ScoreResult :=
  { score := (⌊ratioQ ref_phonemes user_phonemes * 100⌋).toNat,
    details := (getOpcodes ref_phonemes user_phonemes).flatMap
      (detailsOfOpcode ref_phonemes user_phonemes) }

/-- Number of ops in a details list with the given status. -/
def countStatus (l : List AlignOp) (st : OpStatus) : ℕ :=
  (l.filter (fun op => op.status = st)).length

/-- Claim C7: on two empty sequences the similarity ratio is 1, the score is
100 and the details list is empty. -/
theorem compare_phonemes_both_empty :
    ratioQ ([] : List String) [] = 1 ∧
      compare_phonemes [] [] = { score := 100, details := [] } := by
  constructor
  · rfl
  · with_unfolding_all decide

/-- Claim C1, counterexample: for reference `["a"]` and hypothesis
`["b","c"]` the single `replace` run of lengths `(1,2)` emits two
`substitution` ops, so `match + substitution + missing = 2 ≠ 1 = R`; the
claimed pair of equalities is false. -/
theorem scorer_counts_counterexample :
    ¬ (countStatus (compare_phonemes ["a"] ["b", "c"]).details OpStatus.matched +
        countStatus (compare_phonemes ["a"] ["b", "c"]).details OpStatus.substitution +
        countStatus (compare_phonemes ["a"] ["b", "c"]).details OpStatus.missing =
          (["a"] : List String).length ∧
      countStatus (compare_phonemes ["a"] ["b", "c"]).details OpStatus.matched +
        countStatus (compare_phonemes ["a"] ["b", "c"]).details OpStatus.substitution +
        countStatus (compare_phonemes ["a"] ["b", "c"]).details OpStatus.insertion =
          (["b", "c"] : List String).length) := by
  with_unfolding_all decide

/-- A cursor-chained, bounded block list: every block starts at or after the
running cursor and the final cursor stays within `(hi, hj)`. -/
def ChainBounded : ℕ → ℕ → ℕ → ℕ → List (ℕ × ℕ × ℕ) → Prop
  | i, j, hi, hj, [] => i ≤ hi ∧ j ≤ hj
  | i, j, hi, hj, (bi, bj, k) :: rest => i ≤ bi ∧ j ≤ bj ∧ ChainBounded (bi + k) (bj + k) hi hj rest

theorem ChainBounded.weaken {i j i' j' hi hj : ℕ} {blocks : List (ℕ × ℕ × ℕ)}
    (h : ChainBounded i j hi hj blocks) (h1 : i' ≤ i) (h2 : j' ≤ j) :
    ChainBounded i' j' hi hj blocks := by
  cases blocks with
  | nil => exact ⟨le_trans h1 h.1, le_trans h2 h.2⟩
  | cons blk rest =>
    obtain ⟨bi, bj, k⟩ := blk
    exact ⟨le_trans h1 h.1, le_trans h2 h.2.1, h.2.2⟩

theorem ChainBounded.glue {i j m1 m2 hi hj : ℕ} {l1 l2 : List (ℕ × ℕ × ℕ)}
    (h1 : ChainBounded i j m1 m2 l1) (h2 : ChainBounded m1 m2 hi hj l2) :
    ChainBounded i j hi hj (l1 ++ l2) := by
  induction l1 generalizing i j with
  | nil => exact h2.weaken h1.1 h1.2
  | cons blk rest ih =>
    obtain ⟨bi, bj, k⟩ := blk
    exact ⟨h1.1, h1.2.1, ih h1.2.2⟩

theorem mbAux_chain {α : Type} [DecidableEq α] (a b : List α) :
    ∀ fuel alo ahi blo bhi, alo ≤ ahi → blo ≤ bhi →
      ChainBounded alo blo ahi bhi (mbAux a b fuel alo ahi blo bhi) := by
  intro fuel
  induction fuel with
  | zero => intro alo ahi blo bhi h1 h2; exact ⟨h1, h2⟩
  | succ n ih =>
    intro alo ahi blo bhi h1 h2
    unfold mbAux
    cases hfm : findLongestMatch a b alo ahi blo bhi with
    | mk bi rest =>
      obtain ⟨bj, bk⟩ := rest
      by_cases hk : bk = 0
      · simp only [hk, if_pos]
        exact ⟨h1, h2⟩
      · have hb := flm_bounds a b alo ahi blo bhi
        rw [hfm] at hb
        dsimp only at hb
        have hbb := hb.2.2 hk
        simp only [hk, if_neg, if_false]
        have gleft : ChainBounded alo blo bi bj
            (if alo < bi ∧ blo < bj then mbAux a b n alo bi blo bj else []) := by
          by_cases hc : alo < bi ∧ blo < bj
          · simp only [hc, if_pos]
            exact ih alo bi blo bj (le_of_lt hc.1) (le_of_lt hc.2)
          · simp only [hc, if_neg, if_false]
            exact ⟨hb.1, hb.2.1⟩
        have gright : ChainBounded (bi + bk) (bj + bk) ahi bhi
            (if bi + bk < ahi ∧ bj + bk < bhi then
              mbAux a b n (bi + bk) ahi (bj + bk) bhi else []) := by
          by_cases hc : bi + bk < ahi ∧ bj + bk < bhi
          · simp only [hc, if_pos]
            exact ih (bi + bk) ahi (bj + bk) bhi (le_of_lt hc.1) (le_of_lt hc.2)
          · simp only [hc, if_neg, if_false]
            exact ⟨hbb.1, hbb.2⟩
        exact gleft.glue ⟨le_refl bi, le_refl bj, gright⟩

/-- Final cursor position after consuming a block list. -/
def endCursor : ℕ → ℕ → List (ℕ × ℕ × ℕ) → ℕ × ℕ
  | i, j, [] => (i, j)
  | _, _, (bi, bj, k) :: rest => endCursor (bi + k) (bj + k) rest

theorem countStatus_append (l1 l2 : List AlignOp) (st : OpStatus) :
    countStatus (l1 ++ l2) st = countStatus l1 st + countStatus l2 st := by
  unfold countStatus
  rw [List.filter_append, List.length_append]

theorem countStatus_map_const {β : Type} (f : β → AlignOp) (l : List β) (s0 : OpStatus)
    (hf : ∀ x, (f x).status = s0) (st : OpStatus) :
    countStatus (l.map f) st = if st = s0 then l.length else 0 := by
  unfold countStatus
  by_cases h : st = s0
  · subst h
    rw [if_pos rfl]
    have : (l.map f).filter (fun op => decide (op.status = st)) = l.map f :=
      List.filter_eq_self.mpr (fun op hop => by
        rcases List.mem_map.mp hop with ⟨x, _, rfl⟩
        simp [hf x])
    rw [this, List.length_map]
  · rw [if_neg h]
    have : (l.map f).filter (fun op => decide (op.status = st)) = [] :=
      List.filter_eq_nil_iff.mpr (fun op hop => by
        rcases List.mem_map.mp hop with ⟨x, _, rfl⟩
        simp [hf x]
        intro he
        exact absurd he.symm h)
    rw [this]
    rfl

/-- The op status emitted for each opcode tag. -/
def statusOfTag : OpTag → OpStatus
  | OpTag.equal => OpStatus.matched
  | OpTag.replace => OpStatus.substitution
  | OpTag.delete => OpStatus.missing
  | OpTag.insert => OpStatus.insertion

/-- Number of detail entries emitted for one opcode. -/
def opLen : OpTag × ℕ × ℕ × ℕ × ℕ → ℕ
  | (OpTag.equal, i1, i2, _, _) => i2 - i1
  | (OpTag.replace, i1, i2, j1, j2) => max (i2 - i1) (j2 - j1)
  | (OpTag.delete, i1, i2, _, _) => i2 - i1
  | (OpTag.insert, _, _, j1, j2) => j2 - j1

theorem countStatus_detailsOfOpcode (ref user : List String)
    (op : OpTag × ℕ × ℕ × ℕ × ℕ) (st : OpStatus) :
    countStatus (detailsOfOpcode ref user op) st =
      if st = statusOfTag op.1 then opLen op else 0 := by
  obtain ⟨tag, i1, i2, j1, j2⟩ := op
  cases tag with
  | equal =>
    rw [show detailsOfOpcode ref user (OpTag.equal, i1, i2, j1, j2) =
      (List.range (i2 - i1)).map (fun k =>
        { phoneme := ref.getD (i1 + k) "", status := OpStatus.matched,
          user := user.getD (j1 + k) "" }) from rfl]
    rw [countStatus_map_const _ _ OpStatus.matched (fun x => rfl) st]
    simp [statusOfTag, opLen]
  | replace =>
    rw [show detailsOfOpcode ref user (OpTag.replace, i1, i2, j1, j2) =
      (List.range (max (i2 - i1) (j2 - j1))).map (fun k =>
        { phoneme := if k < i2 - i1 then ref.getD (i1 + k) "" else "",
          status := OpStatus.substitution,
          user := if k < j2 - j1 then user.getD (j1 + k) "" else "" }) from rfl]
    rw [countStatus_map_const _ _ OpStatus.substitution (fun x => rfl) st]
    simp [statusOfTag, opLen]
  | delete =>
    rw [show detailsOfOpcode ref user (OpTag.delete, i1, i2, j1, j2) =
      (List.range (i2 - i1)).map (fun k =>
        { phoneme := ref.getD (i1 + k) "", status := OpStatus.missing,
          user := "" }) from rfl]
    rw [countStatus_map_const _ _ OpStatus.missing (fun x => rfl) st]
    simp [statusOfTag, opLen]
  | insert =>
    rw [show detailsOfOpcode ref user (OpTag.insert, i1, i2, j1, j2) =
      (List.range (j2 - j1)).map (fun k =>
        { phoneme := "", status := OpStatus.insertion,
          user := user.getD (j1 + k) "" }) from rfl]
    rw [countStatus_map_const _ _ OpStatus.insertion (fun x => rfl) st]
    simp [statusOfTag, opLen]

/-- Shorthand for the details generated from a cursor and block list. -/
def detailsFrom (ref user : List String) (i j : ℕ) (blocks : List (ℕ × ℕ × ℕ)) :
    List AlignOp :=
  (opcodesGo i j blocks).flatMap (detailsOfOpcode ref user)

theorem counts_ge (ref user : List String) :
    ∀ (blocks : List (ℕ × ℕ × ℕ)) (i j hi hj : ℕ),
      ChainBounded i j hi hj blocks →
      (endCursor i j blocks).1 - i ≤
        countStatus (detailsFrom ref user i j blocks) OpStatus.matched +
        countStatus (detailsFrom ref user i j blocks) OpStatus.substitution +
        countStatus (detailsFrom ref user i j blocks) OpStatus.missing ∧
      (endCursor i j blocks).2 - j ≤
        countStatus (detailsFrom ref user i j blocks) OpStatus.matched +
        countStatus (detailsFrom ref user i j blocks) OpStatus.substitution +
        countStatus (detailsFrom ref user i j blocks) OpStatus.insertion := by
  intro blocks
  induction blocks with
  | nil =>
    intro i j hi hj hchain
    constructor <;> simp [endCursor]
  | cons blk rest ih =>
    intro i j hi hj hchain
    obtain ⟨bi, bj, k⟩ := blk
    obtain ⟨hib, hjb, hrest⟩ := hchain
    have hIH := ih (bi + k) (bj + k) hi hj hrest
    have hD : detailsFrom ref user i j ((bi, bj, k) :: rest) =
        (((if i < bi ∧ j < bj then [(OpTag.replace, i, bi, j, bj)]
          else if i < bi then [(OpTag.delete, i, bi, j, bj)]
          else if j < bj then [(OpTag.insert, i, bi, j, bj)]
          else []).flatMap (detailsOfOpcode ref user)) ++
        ((if k ≠ 0 then [(OpTag.equal, bi, bi + k, bj, bj + k)] else []).flatMap
          (detailsOfOpcode ref user))) ++
        detailsFrom ref user (bi + k) (bj + k) rest := by
      unfold detailsFrom
      rw [show opcodesGo i j ((bi, bj, k) :: rest) =
        ((if i < bi ∧ j < bj then [(OpTag.replace, i, bi, j, bj)]
          else if i < bi then [(OpTag.delete, i, bi, j, bj)]
          else if j < bj then [(OpTag.insert, i, bi, j, bj)]
          else []) ++
        (if k ≠ 0 then [(OpTag.equal, bi, bi + k, bj, bj + k)] else [])) ++
          opcodesGo (bi + k) (bj + k) rest from rfl]
      rw [List.flatMap_append, List.flatMap_append]
    have hE : endCursor i j ((bi, bj, k) :: rest) = endCursor (bi + k) (bj + k) rest := rfl
    have hfront : ∀ st, countStatus ((if i < bi ∧ j < bj then [(OpTag.replace, i, bi, j, bj)]
          else if i < bi then [(OpTag.delete, i, bi, j, bj)]
          else if j < bj then [(OpTag.insert, i, bi, j, bj)]
          else []).flatMap (detailsOfOpcode ref user)) st =
        if i < bi ∧ j < bj then
          (if st = OpStatus.substitution then max (bi - i) (bj - j) else 0)
        else if i < bi then (if st = OpStatus.missing then bi - i else 0)
        else if j < bj then (if st = OpStatus.insertion then bj - j else 0)
        else 0 := by
      intro st
      by_cases h1 : i < bi ∧ j < bj
      · rw [if_pos h1, if_pos h1]
        rw [show ([(OpTag.replace, i, bi, j, bj)].flatMap (detailsOfOpcode ref user)) =
          detailsOfOpcode ref user (OpTag.replace, i, bi, j, bj) by
            simp [List.flatMap_cons]]
        rw [countStatus_detailsOfOpcode]
        simp [statusOfTag, opLen]
      · rw [if_neg h1, if_neg h1]
        by_cases h2 : i < bi
        · rw [if_pos h2, if_pos h2]
          rw [show ([(OpTag.delete, i, bi, j, bj)].flatMap (detailsOfOpcode ref user)) =
            detailsOfOpcode ref user (OpTag.delete, i, bi, j, bj) by
              simp [List.flatMap_cons]]
          rw [countStatus_detailsOfOpcode]
          simp [statusOfTag, opLen]
        · rw [if_neg h2, if_neg h2]
          by_cases h3 : j < bj
          · rw [if_pos h3, if_pos h3]
            rw [show ([(OpTag.insert, i, bi, j, bj)].flatMap (detailsOfOpcode ref user)) =
              detailsOfOpcode ref user (OpTag.insert, i, bi, j, bj) by
                simp [List.flatMap_cons]]
            rw [countStatus_detailsOfOpcode]
            simp [statusOfTag, opLen]
          · rw [if_neg h3, if_neg h3]
            rfl
    have heq : ∀ st, countStatus ((if k ≠ 0 then [(OpTag.equal, bi, bi + k, bj, bj + k)]
          else []).flatMap (detailsOfOpcode ref user)) st =
        if st = OpStatus.matched then k else 0 := by
      intro st
      by_cases hk : k ≠ 0
      · rw [if_pos hk]
        rw [show ([(OpTag.equal, bi, bi + k, bj, bj + k)].flatMap (detailsOfOpcode ref user)) =
          detailsOfOpcode ref user (OpTag.equal, bi, bi + k, bj, bj + k) by
            simp [List.flatMap_cons]]
        rw [countStatus_detailsOfOpcode]
        simp [statusOfTag, opLen]
      · rw [if_neg hk]
        have hk0 : k = 0 := by omega
        subst hk0
        rw [show countStatus (([] : List (OpTag × ℕ × ℕ × ℕ × ℕ)).flatMap
          (detailsOfOpcode ref user)) st = 0 from rfl]
        simp
    have hA1 := hfront OpStatus.matched
    have hA2 := hfront OpStatus.substitution
    have hA3 := hfront OpStatus.missing
    have hA4 := hfront OpStatus.insertion
    have hB1 := heq OpStatus.matched
    have hB2 := heq OpStatus.substitution
    have hB3 := heq OpStatus.missing
    have hB4 := heq OpStatus.insertion
    simp only [reduceCtorEq, if_true, if_false, ite_self, ite_false, ite_true] at hA1 hA2 hA3 hA4 hB1 hB2 hB3 hB4
    rw [hD, hE]
    simp only [countStatus_append]
    rw [hA1, hA2, hA3, hA4, hB1, hB2, hB3, hB4]
    constructor
    · split_ifs <;> omega
    · split_ifs <;> omega

theorem mergeBlocksGo_chain :
    ∀ (blocks : List (ℕ × ℕ × ℕ)) (i1 j1 k1 i j hi hj : ℕ),
      ChainBounded i j hi hj blocks → i1 + k1 ≤ i → j1 + k1 ≤ j →
      ChainBounded i1 j1 hi hj (mergeBlocksGo (i1, j1, k1) blocks) := by
  intro blocks
  induction blocks with
  | nil =>
    intro i1 j1 k1 i j hi hj hc h1 h2
    obtain ⟨hci, hcj⟩ := hc
    unfold mergeBlocksGo
    by_cases hk : k1 ≠ 0
    · rw [if_pos hk]
      exact ⟨le_refl _, le_refl _, by omega, by omega⟩
    · rw [if_neg hk]
      exact ⟨by omega, by omega⟩
  | cons blk rest ih =>
    intro i1 j1 k1 i j hi hj hc h1 h2
    obtain ⟨i2, j2, k2⟩ := blk
    obtain ⟨h2i, h2j, hrest⟩ := hc
    unfold mergeBlocksGo
    by_cases hadj : i1 + k1 = i2 ∧ j1 + k1 = j2
    · rw [if_pos hadj]
      exact ih i1 j1 (k1 + k2) (i2 + k2) (j2 + k2) hi hj hrest (by omega) (by omega)
    · rw [if_neg hadj]
      have htail : ChainBounded i2 j2 hi hj (mergeBlocksGo (i2, j2, k2) rest) :=
        ih i2 j2 k2 (i2 + k2) (j2 + k2) hi hj hrest (le_refl _) (le_refl _)
      by_cases hk : k1 ≠ 0
      · rw [if_pos hk]
        exact ⟨le_refl _, le_refl _, htail.weaken (by omega) (by omega)⟩
      · rw [if_neg hk]
        rw [List.nil_append]
        exact htail.weaken (by omega) (by omega)

theorem endCursor_concat_zero :
    ∀ (l : List (ℕ × ℕ × ℕ)) (i j la lb : ℕ),
      endCursor i j (l ++ [(la, lb, 0)]) = (la, lb) := by
  intro l
  induction l with
  | nil =>
    intro i j la lb
    show endCursor (la + 0) (lb + 0) [] = (la, lb)
    simp [endCursor]
  | cons blk rest ih =>
    intro i j la lb
    obtain ⟨bi, bj, k⟩ := blk
    exact ih (bi + k) (bj + k) la lb

theorem getMatchingBlocks_chain (ref user : List String) :
    ChainBounded 0 0 ref.length user.length (getMatchingBlocks ref user) := by
  have hchain0 : ChainBounded 0 0 ref.length user.length
      (matchingBlocksAux ref user 0 ref.length 0 user.length) :=
    mbAux_chain ref user _ 0 ref.length 0 user.length (Nat.zero_le _) (Nat.zero_le _)
  have hmerge := mergeBlocksGo_chain _ 0 0 0 0 0 ref.length user.length hchain0
    (by omega) (by omega)
  have hsent : ChainBounded ref.length user.length ref.length user.length
      [(ref.length, user.length, 0)] :=
    ⟨le_refl _, le_refl _, by omega, by omega⟩
  exact hmerge.glue hsent

/-- Claim C1, amended: the number of `match + substitution + missing` ops is
at least `R` and the number of `match + substitution + insertion` ops is at
least `H` (a `replace` run of lengths `(a, b)` emits `max(a, b)` substitution
ops, so each count exceeds its sequence length by the total unbalanced excess
of the replace runs; the stated equalities hold exactly when every replace
run is balanced). -/
theorem scorer_counts_bounds (ref user : List String) :
    ref.length ≤ countStatus (compare_phonemes ref user).details OpStatus.matched +
      countStatus (compare_phonemes ref user).details OpStatus.substitution +
      countStatus (compare_phonemes ref user).details OpStatus.missing ∧
    user.length ≤ countStatus (compare_phonemes ref user).details OpStatus.matched +
      countStatus (compare_phonemes ref user).details OpStatus.substitution +
      countStatus (compare_phonemes ref user).details OpStatus.insertion := by
  have hcg := counts_ge ref user (getMatchingBlocks ref user) 0 0 ref.length user.length
    (getMatchingBlocks_chain ref user)
  have hend : endCursor 0 0 (getMatchingBlocks ref user) = (ref.length, user.length) :=
    endCursor_concat_zero _ 0 0 ref.length user.length
  rw [hend] at hcg
  have hdet : (compare_phonemes ref user).details =
      detailsFrom ref user 0 0 (getMatchingBlocks ref user) := rfl
  rw [hdet]
  simpa using hcg

/-! ### `find_longest_match` on identical sequences

For `a = b = l` the main loop's best block is always on the diagonal, and
the extension loops then grow it to the whole sequence.  The proof tracks
the length `runLen l i` of the maximal non-popular run ending at `i`. -/

/-- Whether position `i` of `l` holds a popular (autojunk-removed) element;
out-of-range positions count as popular. -/
def popAt {α : Type} [DecidableEq α] (l : List α) (i : ℕ) : Bool :=
  match l[i]? with
  | some x => isPopular l x
  | none => true

/-- Length of the maximal run of non-popular positions ending at `i`. -/
def runLen {α : Type} [DecidableEq α] (l : List α) : ℕ → ℕ
  | 0 => if popAt l 0 then 0 else 1
  | i + 1 => if popAt l (i + 1) then 0 else runLen l i + 1

theorem runLen_le {α : Type} [DecidableEq α] (l : List α) : ∀ i, runLen l i ≤ i + 1 := by
  intro i
  induction i with
  | zero => unfold runLen; split <;> omega
  | succ n ih => unfold runLen; split <;> omega

theorem runLen_zero_nonpop {α : Type} [DecidableEq α] {l : List α}
    (h : popAt l 0 = false) : runLen l 0 = 1 := by
  rw [show runLen l 0 = if popAt l 0 = true then 0 else 1 from rfl, h]
  rfl

theorem runLen_succ_nonpop {α : Type} [DecidableEq α] {l : List α} {i : ℕ}
    (h : popAt l (i + 1) = false) : runLen l (i + 1) = runLen l i + 1 := by
  rw [show runLen l (i + 1) = if popAt l (i + 1) = true then 0 else runLen l i + 1 from rfl, h]
  rfl

theorem runLen_pop {α : Type} [DecidableEq α] {l : List α} {i : ℕ}
    (h : popAt l i = true) : runLen l i = 0 := by
  cases i with
  | zero =>
    rw [show runLen l 0 = if popAt l 0 = true then 0 else 1 from rfl, h]
    rfl
  | succ n =>
    rw [show runLen l (n + 1) = if popAt l (n + 1) = true then 0 else runLen l n + 1 from rfl, h]
    rfl

theorem window_le_runLen {α : Type} [DecidableEq α] (l : List α) :
    ∀ k j, k ≤ j + 1 → (∀ d < k, popAt l (j - d) = false) → k ≤ runLen l j := by
  intro k
  induction k with
  | zero => intro j _ _; exact Nat.zero_le _
  | succ m ih =>
    intro j hkj hw
    cases j with
    | zero =>
      have hm : m = 0 := by omega
      subst hm
      have := hw 0 (by omega)
      simp only [Nat.sub_zero] at this
      rw [runLen_zero_nonpop this]
    | succ j' =>
      have h0 := hw 0 (by omega)
      simp only [Nat.sub_zero] at h0
      have hrec : m ≤ runLen l j' := by
        apply ih j' (by omega)
        intro d hd
        have := hw (d + 1) (by omega)
        rw [show j' + 1 - (d + 1) = j' - d by omega] at this
        exact this
      rw [runLen_succ_nonpop h0]
      omega

/-- Soundness of a `j2len` table for the diagonal run: every chain records
an equal, non-popular window of `a = b = l` ending at its key (for row `r`). -/
def RowSound {α : Type} [DecidableEq α] (l : List α) (r : ℕ) (m : List (ℕ × ℕ)) : Prop :=
  ∀ p ∈ m, 1 ≤ p.2 ∧ p.2 ≤ p.1 + 1 ∧ p.2 ≤ r + 1 ∧
    ∀ d < p.2, ∃ x, l[p.1 - d]? = some x ∧ l[r - d]? = some x ∧ isPopular l x = false

theorem positions_lt {α : Type} [DecidableEq α] (l : List α) (x : α) :
    ∀ j ∈ positions l x, j < l.length ∧ l[j]? = some x := by
  intro j hj
  unfold positions at hj
  rcases List.mem_filter.mp hj with ⟨h1, h2⟩
  exact ⟨List.mem_range.mp h1, by simpa using h2⟩

theorem positions_filter_id {α : Type} [DecidableEq α] (l : List α) (x : α) :
    (b2j l x).filter (fun j => decide (0 ≤ j) && decide (j < l.length)) = b2j l x := by
  apply List.filter_eq_self.mpr
  intro j hj
  unfold b2j at hj
  by_cases hp : isPopular l x
  · rw [if_pos hp] at hj
    exact absurd hj (List.not_mem_nil j)
  · rw [if_neg hp] at hj
    have := (positions_lt l x j hj).1
    simp [this]

theorem positions_split {α : Type} [DecidableEq α] (l : List α) (x : α) (i : ℕ)
    (hi : i < l.length) (hx : l[i]? = some x) :
    ∃ A B, positions l x = A ++ i :: B ∧
      (∀ j ∈ A, j < i ∧ l[j]? = some x) ∧ (∀ j ∈ B, i < j ∧ l[j]? = some x) := by
  refine ⟨(List.range' 0 i).filter (fun j => decide (l[j]? = some x)),
    (List.range' (i + 1) (l.length - i - 1)).filter (fun j => decide (l[j]? = some x)),
    ?_, ?_, ?_⟩
  · unfold positions
    rw [List.range_eq_range']
    rw [show l.length = 1 + (l.length - i - 1) + i by omega]
    rw [← List.range'_append 0 i (1 + (l.length - i - 1)) 1]
    rw [List.filter_append]
    congr 1
    rw [show (0 + 1 * i : ℕ) = i by omega]
    rw [show (1 + (l.length - i - 1)) = (l.length - i - 1) + 1 by omega]
    rw [show List.range' i ((l.length - i - 1) + 1) 1 =
      i :: List.range' (i + 1) (l.length - i - 1) 1 from rfl]
    rw [List.filter_cons]
    simp only [hx, decide_eq_true_eq]
    rw [if_pos trivial]
    congr 3
    omega
  · intro j hj
    rcases List.mem_filter.mp hj with ⟨h1, h2⟩
    have := List.mem_range'_1.mp h1
    exact ⟨by omega, by simpa using h2⟩
  · intro j hj
    rcases List.mem_filter.mp hj with ⟨h1, h2⟩
    have := List.mem_range'_1.mp h1
    exact ⟨by omega, by simpa using h2⟩

theorem popAt_false_of {α : Type} [DecidableEq α] {l : List α} {t : ℕ} {y : α}
    (h : l[t]? = some y) (hy : isPopular l y = false) : popAt l t = false := by
  unfold popAt
  rw [h]
  exact hy

theorem diag_chain_val {α : Type} [DecidableEq α] {l : List α} {i j : ℕ}
    {m_old : List (ℕ × ℕ)} {x : α}
    (hold : RowSound l (i - 1) m_old) (hold0 : i = 0 → m_old = [])
    (hx : l[i]? = some x) (hpx : isPopular l x = false) (hjx : l[j]? = some x) :
    ∀ k, k = (if j = 0 then 1 else j2get m_old (j - 1) + 1) →
      1 ≤ k ∧ k ≤ j + 1 ∧ k ≤ i + 1 ∧
        ∀ d < k, ∃ y, l[j - d]? = some y ∧ l[i - d]? = some y ∧ isPopular l y = false := by
  intro k hk
  have base : ∀ d < 1, ∃ y, l[j - d]? = some y ∧ l[i - d]? = some y ∧
      isPopular l y = false := by
    intro d hd
    have hd0 : d = 0 := by omega
    subst hd0
    exact ⟨x, by simpa using hjx, by simpa using hx, hpx⟩
  by_cases hj0 : j = 0
  · subst hj0
    rw [if_pos rfl] at hk
    subst hk
    exact ⟨le_refl 1, by omega, by omega, base⟩
  · rw [if_neg hj0] at hk
    rcases j2get_cases m_old (j - 1) with hz | hmem
    · rw [hz] at hk
      subst hk
      exact ⟨le_refl 1, by omega, by omega, base⟩
    · have hv := hold _ hmem
      simp only at hv
      obtain ⟨hv1, hv2, hv3, hvw⟩ := hv
      have hi1 : 1 ≤ i := by
        by_contra hi0
        have : i = 0 := by omega
        rw [hold0 this] at hmem
        exact absurd hmem (List.not_mem_nil _)
      subst hk
      refine ⟨by omega, by omega, by omega, ?_⟩
      intro d hd
      cases d with
      | zero => exact base 0 (by omega)
      | succ d' =>
        obtain ⟨y, hy1, hy2, hy3⟩ := hvw d' (by omega)
        refine ⟨y, ?_, ?_, hy3⟩
        · rw [show j - (d' + 1) = j - 1 - d' by omega]
          exact hy1
        · rw [show i - (d' + 1) = i - 1 - d' by omega]
          exact hy2

theorem diag_chain_at_i {α : Type} [DecidableEq α] {l : List α} {i : ℕ}
    {m_old : List (ℕ × ℕ)} {x : α}
    (hold : RowSound l (i - 1) m_old) (hold0 : i = 0 → m_old = [])
    (holdc : 1 ≤ i → popAt l (i - 1) = false → j2get m_old (i - 1) = runLen l (i - 1))
    (hx : l[i]? = some x) (hpx : isPopular l x = false) :
    (if i = 0 then 1 else j2get m_old (i - 1) + 1) = runLen l i := by
  have hpopi : popAt l i = false := popAt_false_of hx hpx
  by_cases hi0 : i = 0
  · rw [if_pos hi0]
    subst hi0
    rw [runLen_zero_nonpop hpopi]
  · rw [if_neg hi0]
    have hi1 : 1 ≤ i := by omega
    have hsucc : runLen l i = runLen l (i - 1) + 1 := by
      have := runLen_succ_nonpop (l := l) (i := i - 1)
        (by rw [show i - 1 + 1 = i by omega]; exact hpopi)
      rw [show i - 1 + 1 = i by omega] at this
      exact this
    cases hpop1 : popAt l (i - 1) with
    | false =>
      rw [holdc hi1 hpop1, hsucc]
    | true =>
      have hz : j2get m_old (i - 1) = 0 := by
        rcases j2get_cases m_old (i - 1) with hz | hmem
        · exact hz
        · have hv := hold _ hmem
          simp only at hv
          obtain ⟨hv1, _, _, hvw⟩ := hv
          obtain ⟨y, hy1, _, hy3⟩ := hvw 0 (by omega)
          simp only [Nat.sub_zero] at hy1
          rw [popAt_false_of hy1 hy3] at hpop1
          exact absurd hpop1 (by decide)
      rw [hz, hsucc, runLen_pop hpop1]

theorem innerStep_no_update {i : ℕ} {old : List (ℕ × ℕ)} {st : FlmState} {j : ℕ}
    (h : (if j = 0 then 1 else j2get old (j - 1) + 1) ≤ st.bestsize) :
    innerStep i old st j =
      { st with j2len := st.j2len ++ [(j, if j = 0 then 1 else j2get old (j - 1) + 1)] } := by
  unfold innerStep
  rw [if_neg]
  dsimp only
  omega

theorem innerStep_update {i : ℕ} {old : List (ℕ × ℕ)} {st : FlmState} {j : ℕ}
    (h : st.bestsize < (if j = 0 then 1 else j2get old (j - 1) + 1)) :
    innerStep i old st j =
      { besti := i + 1 - (if j = 0 then 1 else j2get old (j - 1) + 1),
        bestj := j + 1 - (if j = 0 then 1 else j2get old (j - 1) + 1),
        bestsize := if j = 0 then 1 else j2get old (j - 1) + 1,
        j2len := st.j2len ++ [(j, if j = 0 then 1 else j2get old (j - 1) + 1)] } := by
  unfold innerStep
  rw [if_pos]
  dsimp only
  omega

theorem find?_append_left {β : Type} {p : β → Bool} :
    ∀ (m : List β) (l' : List β) (v : β), m.find? p = some v → (m ++ l').find? p = some v := by
  intro m
  induction m with
  | nil => intro l' v h; exact absurd h (by simp)
  | cons a m ih =>
    intro l' v h
    rw [List.cons_append]
    rw [List.find?_cons] at h ⊢
    cases hp : p a with
    | true => rw [hp] at h; simpa using h
    | false =>
      rw [hp] at h
      simp only at h ⊢
      exact ih l' v h

theorem find?_key_none {m : List (ℕ × ℕ)} {i : ℕ} (h : ∀ p ∈ m, p.1 ≠ i) :
    m.find? (fun p => p.1 == i) = none :=
  List.find?_eq_none.mpr (fun p hp => by simp [h p hp])

theorem find?_append_key_eq {i : ℕ} :
    ∀ (m : List (ℕ × ℕ)), (∀ p ∈ m, p.1 ≠ i) → ∀ (v : ℕ),
      (m ++ [(i, v)]).find? (fun p => p.1 == i) = some (i, v) := by
  intro m
  induction m with
  | nil => intro _ v; simp [List.find?_cons]
  | cons a m ih =>
    intro h v
    rw [List.cons_append, List.find?_cons]
    have ha : ((fun p : ℕ × ℕ => p.1 == i) a) = false := by
      simpa using h a (List.mem_cons_self a m)
    simp only [ha]
    exact ih (fun p hp => h p (List.mem_cons_of_mem a hp)) v

theorem j2get_append_miss {m : List (ℕ × ℕ)} {i : ℕ} (h : ∀ p ∈ m, p.1 ≠ i)
    (v : ℕ) : j2get (m ++ [(i, v)]) i = v := by
  unfold j2get
  rw [find?_append_key_eq m h v]
  rfl

theorem j2get_append_found {m : List (ℕ × ℕ)} {i : ℕ}
    (h : (m.find? (fun p => p.1 == i)).isSome) (e : ℕ × ℕ) :
    j2get (m ++ [e]) i = j2get m i ∧
      ((m ++ [e]).find? (fun p => p.1 == i)).isSome := by
  cases hf : m.find? (fun p => p.1 == i) with
  | none => rw [hf] at h; exact absurd h (by simp)
  | some v =>
    have := find?_append_left m [e] v hf
    unfold j2get
    rw [this, hf]
    simp

theorem j2get_append_key_isSome (m : List (ℕ × ℕ)) (i v : ℕ) :
    (((m ++ [(i, v)]).find? (fun p => p.1 == i))).isSome := by
  induction m with
  | nil => simp [List.find?_cons]
  | cons a m ih =>
    rw [List.cons_append, List.find?_cons]
    cases hp : ((fun p : ℕ × ℕ => p.1 == i) a) with
    | true => simp [hp]
    | false =>
      simp only [hp]
      exact ih

theorem diag_fold_lt {α : Type} [DecidableEq α] {l : List α} {i : ℕ}
    {m_old : List (ℕ × ℕ)} {x : α}
    (hold : RowSound l (i - 1) m_old) (hold0 : i = 0 → m_old = [])
    (hx : l[i]? = some x) (hpx : isPopular l x = false) :
    ∀ (A : List ℕ) (st : FlmState),
      (∀ j ∈ A, j < i ∧ l[j]? = some x) →
      (∀ i' < i, runLen l i' ≤ st.bestsize) →
      RowSound l i st.j2len → (∀ p ∈ st.j2len, p.1 < i) →
      (A.foldl (innerStep i m_old) st).besti = st.besti ∧
      (A.foldl (innerStep i m_old) st).bestj = st.bestj ∧
      (A.foldl (innerStep i m_old) st).bestsize = st.bestsize ∧
      RowSound l i (A.foldl (innerStep i m_old) st).j2len ∧
      (∀ p ∈ (A.foldl (innerStep i m_old) st).j2len, p.1 < i) := by
  intro A
  induction A with
  | nil => intro st _ _ h2 h3; exact ⟨rfl, rfl, rfl, h2, h3⟩
  | cons j A ih =>
    intro st hA hI2 hsound hkeys
    obtain ⟨hji, hjx⟩ := hA j (List.mem_cons_self j A)
    have hk := diag_chain_val hold hold0 hx hpx hjx _ rfl
    obtain ⟨hk1, hk2, hk3, hkw⟩ := hk
    have hkrun : (if j = 0 then 1 else j2get m_old (j - 1) + 1) ≤ runLen l j := by
      apply window_le_runLen l _ j hk2
      intro d hd
      obtain ⟨y, hy1, _, hy3⟩ := hkw d hd
      exact popAt_false_of hy1 hy3
    have hle : (if j = 0 then 1 else j2get m_old (j - 1) + 1) ≤ st.bestsize :=
      le_trans hkrun (hI2 j hji)
    rw [List.foldl_cons, innerStep_no_update hle]
    have hstep := ih { st with j2len := st.j2len ++
        [(j, if j = 0 then 1 else j2get m_old (j - 1) + 1)] }
      (fun j' hj' => hA j' (List.mem_cons_of_mem j hj'))
      hI2
      (by
        intro p hp
        rcases List.mem_append.mp hp with hp | hp
        · exact hsound p hp
        · have : p = (j, if j = 0 then 1 else j2get m_old (j - 1) + 1) := by simpa using hp
          subst this
          exact ⟨hk1, hk2, hk3, hkw⟩)
      (by
        intro p hp
        rcases List.mem_append.mp hp with hp | hp
        · exact hkeys p hp
        · have : p = (j, if j = 0 then 1 else j2get m_old (j - 1) + 1) := by simpa using hp
          subst this
          exact hji)
    exact hstep

theorem diag_step_at_i {α : Type} [DecidableEq α] {l : List α} {i : ℕ}
    {m_old : List (ℕ × ℕ)} {x : α}
    (hold : RowSound l (i - 1) m_old) (hold0 : i = 0 → m_old = [])
    (holdc : 1 ≤ i → popAt l (i - 1) = false → j2get m_old (i - 1) = runLen l (i - 1))
    (hx : l[i]? = some x) (hpx : isPopular l x = false)
    (st : FlmState) (hbb : st.besti = st.bestj)
    (hI2 : ∀ i' < i, runLen l i' ≤ st.bestsize)
    (hsound : RowSound l i st.j2len) (hkeys : ∀ p ∈ st.j2len, p.1 < i) :
    (innerStep i m_old st i).besti = (innerStep i m_old st i).bestj ∧
    (∀ i' < i + 1, runLen l i' ≤ (innerStep i m_old st i).bestsize) ∧
    RowSound l i (innerStep i m_old st i).j2len ∧
    j2get (innerStep i m_old st i).j2len i = runLen l i ∧
    ((innerStep i m_old st i).j2len.find? (fun p => p.1 == i)).isSome := by
  have hkeq := diag_chain_at_i hold hold0 holdc hx hpx
  have hk := diag_chain_val hold hold0 hx hpx hx _ rfl
  obtain ⟨hk1, hk2, hk3, hkw⟩ := hk
  have hkne : ∀ p ∈ st.j2len, p.1 ≠ i := fun p hp => by
    have := hkeys p hp
    omega
  by_cases hcase : st.bestsize < (if i = 0 then 1 else j2get m_old (i - 1) + 1)
  · rw [innerStep_update hcase]
    refine ⟨rfl, ?_, ?_, ?_, ?_⟩
    · intro i' hi'
      dsimp only
      rcases Nat.lt_or_ge i' i with h | h
      · exact le_trans (hI2 i' h) (by omega)
      · have : i' = i := by omega
        subst this
        rw [← hkeq]
    · intro p hp
      dsimp only at hp
      rcases List.mem_append.mp hp with hp | hp
      · exact hsound p hp
      · have : p = (i, if i = 0 then 1 else j2get m_old (i - 1) + 1) := by simpa using hp
        subst this
        exact ⟨hk1, hk2, hk3, hkw⟩
    · dsimp only
      rw [j2get_append_miss hkne, hkeq]
    · dsimp only
      exact j2get_append_key_isSome st.j2len i _
  · rw [innerStep_no_update (by omega)]
    refine ⟨hbb, ?_, ?_, ?_, ?_⟩
    · intro i' hi'
      dsimp only
      rcases Nat.lt_or_ge i' i with h | h
      · exact hI2 i' h
      · have : i' = i := by omega
        subst this
        rw [← hkeq]
        omega
    · intro p hp
      dsimp only at hp
      rcases List.mem_append.mp hp with hp | hp
      · exact hsound p hp
      · have : p = (i, if i = 0 then 1 else j2get m_old (i - 1) + 1) := by simpa using hp
        subst this
        exact ⟨hk1, hk2, hk3, hkw⟩
    · dsimp only
      rw [j2get_append_miss hkne, hkeq]
    · dsimp only
      exact j2get_append_key_isSome st.j2len i _

theorem diag_fold_gt {α : Type} [DecidableEq α] {l : List α} {i : ℕ}
    {m_old : List (ℕ × ℕ)} {x : α}
    (hold : RowSound l (i - 1) m_old) (hold0 : i = 0 → m_old = [])
    (hx : l[i]? = some x) (hpx : isPopular l x = false) :
    ∀ (B : List ℕ) (st : FlmState),
      (∀ j ∈ B, l[j]? = some x) →
      st.besti = st.bestj →
      (∀ i' < i + 1, runLen l i' ≤ st.bestsize) →
      RowSound l i st.j2len →
      j2get st.j2len i = runLen l i →
      (st.j2len.find? (fun p => p.1 == i)).isSome →
      (B.foldl (innerStep i m_old) st).besti = (B.foldl (innerStep i m_old) st).bestj ∧
      (∀ i' < i + 1, runLen l i' ≤ (B.foldl (innerStep i m_old) st).bestsize) ∧
      RowSound l i (B.foldl (innerStep i m_old) st).j2len ∧
      j2get (B.foldl (innerStep i m_old) st).j2len i = runLen l i ∧
      ((B.foldl (innerStep i m_old) st).j2len.find? (fun p => p.1 == i)).isSome := by
  intro B
  induction B with
  | nil => intro st _ h1 h2 h3 h4 h5; exact ⟨h1, h2, h3, h4, h5⟩
  | cons j B ih =>
    intro st hB hbb hI2 hsound hget hfound
    have hjx := hB j (List.mem_cons_self j B)
    have hk := diag_chain_val hold hold0 hx hpx hjx _ rfl
    obtain ⟨hk1, hk2, hk3, hkw⟩ := hk
    have hkrun : (if j = 0 then 1 else j2get m_old (j - 1) + 1) ≤ runLen l i := by
      apply window_le_runLen l _ i hk3
      intro d hd
      obtain ⟨y, _, hy2, hy3⟩ := hkw d hd
      exact popAt_false_of hy2 hy3
    have hle : (if j = 0 then 1 else j2get m_old (j - 1) + 1) ≤ st.bestsize :=
      le_trans hkrun (hI2 i (by omega))
    rw [List.foldl_cons, innerStep_no_update hle]
    have hpers := j2get_append_found hfound
      ((j, if j = 0 then 1 else j2get m_old (j - 1) + 1))
    exact ih { st with j2len := st.j2len ++
        [(j, if j = 0 then 1 else j2get m_old (j - 1) + 1)] }
      (fun j' hj' => hB j' (List.mem_cons_of_mem j hj'))
      hbb hI2
      (by
        intro p hp
        rcases List.mem_append.mp hp with hp | hp
        · exact hsound p hp
        · have : p = (j, if j = 0 then 1 else j2get m_old (j - 1) + 1) := by simpa using hp
          subst this
          exact ⟨hk1, hk2, hk3, hkw⟩)
      (by rw [show ({ st with j2len := st.j2len ++
          [(j, if j = 0 then 1 else j2get m_old (j - 1) + 1)] } : FlmState).j2len =
          st.j2len ++ [(j, if j = 0 then 1 else j2get m_old (j - 1) + 1)] from rfl]
          rw [hpers.1, hget])
      hpers.2

theorem diag_rowStep {α : Type} [DecidableEq α] (l : List α) (i : ℕ) (hi : i < l.length)
    (st : FlmState)
    (hold : RowSound l (i - 1) st.j2len)
    (hold0 : i = 0 → st.j2len = [])
    (holdc : 1 ≤ i → popAt l (i - 1) = false → j2get st.j2len (i - 1) = runLen l (i - 1))
    (hbb : st.besti = st.bestj)
    (hI2 : ∀ i' < i, runLen l i' ≤ st.bestsize) :
    (rowStep l (b2j l) 0 l.length st i).besti = (rowStep l (b2j l) 0 l.length st i).bestj ∧
    (∀ i' < i + 1, runLen l i' ≤ (rowStep l (b2j l) 0 l.length st i).bestsize) ∧
    RowSound l i (rowStep l (b2j l) 0 l.length st i).j2len ∧
    (popAt l i = false →
      j2get (rowStep l (b2j l) 0 l.length st i).j2len i = runLen l i) := by
  have hx : l[i]? = some l[i] := List.getElem?_eq_getElem hi
  unfold rowStep
  rw [hx]
  simp only
  rw [positions_filter_id l l[i]]
  by_cases hpx : isPopular l l[i]
  · rw [show b2j l l[i] = [] by unfold b2j; rw [if_pos hpx]]
    rw [List.foldl_nil]
    have hpop : popAt l i = true := by
      unfold popAt
      rw [hx]
      exact hpx
    refine ⟨hbb, ?_, ?_, ?_⟩
    · intro i' hi'
      rcases Nat.lt_or_ge i' i with h | h
      · exact hI2 i' h
      · have : i' = i := by omega
        subst this
        rw [runLen_pop hpop]
        omega
    · intro p hp
      exact absurd hp (List.not_mem_nil p)
    · intro hcontra
      rw [hpop] at hcontra
      exact absurd hcontra (by decide)
  · have hpx' : isPopular l l[i] = false := by
      cases h : isPopular l l[i] with
      | false => rfl
      | true => exact absurd h hpx
    rw [show b2j l l[i] = positions l l[i] by unfold b2j; rw [if_neg hpx]]
    obtain ⟨A, B, hsplit, hA, hB⟩ := positions_split l l[i] i hi hx
    rw [hsplit, List.foldl_append, List.foldl_cons]
    have hph1 := diag_fold_lt hold hold0 hx hpx' A { st with j2len := [] }
      hA hI2
      (fun p hp => absurd hp (List.not_mem_nil p))
      (fun p hp => absurd hp (List.not_mem_nil p))
    obtain ⟨he1, he2, he3, hs1, hkeys1⟩ := hph1
    set st1 := A.foldl (innerStep i st.j2len) { st with j2len := [] } with hst1
    have hbb1 : st1.besti = st1.bestj := by rw [he1, he2]; exact hbb
    have hI21 : ∀ i' < i, runLen l i' ≤ st1.bestsize := by
      intro i' hi'
      rw [he3]
      exact hI2 i' hi'
    have hstep := diag_step_at_i hold hold0 holdc hx hpx' st1 hbb1 hI21 hs1 hkeys1
    obtain ⟨hd1, hd2, hd3, hd4, hd5⟩ := hstep
    have hph2 := diag_fold_gt hold hold0 hx hpx' B (innerStep i st.j2len st1 i)
      (fun j hj => (hB j hj).2)
      hd1 hd2 hd3 hd4 hd5
    exact ⟨hph2.1, hph2.2.1, hph2.2.2.1, fun _ => hph2.2.2.2.1⟩

theorem diag_fold_rows {α : Type} [DecidableEq α] (l : List α) :
    ∀ cnt, cnt ≤ l.length →
      (((List.range' 0 cnt).foldl (rowStep l (b2j l) 0 l.length)
        { besti := 0, bestj := 0, bestsize := 0, j2len := [] }).besti =
      ((List.range' 0 cnt).foldl (rowStep l (b2j l) 0 l.length)
        { besti := 0, bestj := 0, bestsize := 0, j2len := [] }).bestj) ∧
      (∀ i' < cnt, runLen l i' ≤
        ((List.range' 0 cnt).foldl (rowStep l (b2j l) 0 l.length)
          { besti := 0, bestj := 0, bestsize := 0, j2len := [] }).bestsize) ∧
      RowSound l (cnt - 1)
        ((List.range' 0 cnt).foldl (rowStep l (b2j l) 0 l.length)
          { besti := 0, bestj := 0, bestsize := 0, j2len := [] }).j2len ∧
      (cnt = 0 →
        ((List.range' 0 cnt).foldl (rowStep l (b2j l) 0 l.length)
          { besti := 0, bestj := 0, bestsize := 0, j2len := [] }).j2len = []) ∧
      (1 ≤ cnt → popAt l (cnt - 1) = false →
        j2get ((List.range' 0 cnt).foldl (rowStep l (b2j l) 0 l.length)
          { besti := 0, bestj := 0, bestsize := 0, j2len := [] }).j2len (cnt - 1) =
          runLen l (cnt - 1)) := by
  intro cnt
  induction cnt with
  | zero =>
    intro _
    refine ⟨rfl, ?_, ?_, fun _ => rfl, ?_⟩
    · intro i' hi'; omega
    · intro p hp; exact absurd hp (List.not_mem_nil p)
    · intro h; omega
  | succ n ih =>
    intro hlen
    have ihn := ih (by omega)
    rw [List.range'_concat]
    rw [List.foldl_append]
    simp only [List.foldl_cons, List.foldl_nil, one_mul, Nat.zero_add]
    obtain ⟨ih1, ih2, ih3, ih4, ih5⟩ := ihn
    have hrow := diag_rowStep l n (by omega) _ ih3 ih4 ih5 ih1 ih2
    refine ⟨hrow.1, ?_, ?_, by omega, ?_⟩
    · intro i' hi'
      exact hrow.2.1 i' (by omega)
    · simpa using hrow.2.2.1
    · intro _ hpop
      simp only [Nat.add_sub_cancel]
      exact hrow.2.2.2 (by simpa using hpop)

theorem extendLeft_diag {α : Type} [DecidableEq α] (l : List α) :
    ∀ s k, s + k ≤ l.length →
      extendLeftGo l l 0 0 s (s, s, k) = (0, 0, s + k) := by
  intro s
  induction s with
  | zero =>
    intro k _
    rw [Nat.zero_add]
    rfl
  | succ s ih =>
    intro k hlen
    unfold extendLeftGo
    rw [if_pos]
    · have := ih (k + 1) (by omega)
      rw [show s + 1 - 1 = s from rfl]
      rw [this]
      rw [show s + (k + 1) = s + 1 + k by omega]
    · refine ⟨by omega, by omega, rfl, ?_⟩
      rw [show s + 1 - 1 = s from rfl]
      rw [List.getElem?_eq_getElem (by omega : s < l.length)]
      rfl

theorem extendRight_diag {α : Type} [DecidableEq α] (l : List α) :
    ∀ fuel m, m ≤ l.length → l.length - m ≤ fuel →
      extendRightGo l l l.length l.length fuel (0, 0, m) = (0, 0, l.length) := by
  intro fuel
  induction fuel with
  | zero =>
    intro m h1 h2
    have : m = l.length := by omega
    subst this
    rfl
  | succ n ih =>
    intro m h1 h2
    by_cases hm : m < l.length
    · unfold extendRightGo
      rw [if_pos]
      · exact ih (m + 1) (by omega) (by omega)
      · refine ⟨by omega, by omega, rfl, ?_⟩
        rw [List.getElem?_eq_getElem (by omega : 0 + m < l.length)]
        rfl
    · have : m = l.length := by omega
      subst this
      unfold extendRightGo
      rw [if_neg]
      intro hcontra
      omega

/-- On identical sequences, `find_longest_match` over the full range returns
the whole diagonal block `(0, 0, n)`. -/
theorem flm_diag {α : Type} [DecidableEq α] (l : List α) :
    findLongestMatch l l 0 l.length 0 l.length = (0, 0, l.length) := by
  unfold findLongestMatch flmMain
  have hdg := diag_fold_rows l l.length (le_refl _)
  have hinv := flmMain_inv l (b2j l) 0 0 l.length l.length
  rw [show l.length - 0 = l.length from rfl]
  set st := (List.range' 0 l.length).foldl (rowStep l (b2j l) 0 l.length)
    { besti := 0, bestj := 0, bestsize := 0, j2len := [] } with hst
  obtain ⟨hbb, hI2, _, _, _⟩ := hdg
  show extendRightGo l l l.length l.length l.length
    (extendLeftGo l l 0 0 st.besti (st.besti, st.bestj, st.bestsize)) = (0, 0, l.length)
  by_cases hz : st.bestsize = 0
  · have h0 := hinv.1.2 hz
    rw [h0.1, h0.2, hz]
    rw [extendLeftGo_at_floor l l 0 0 0 0 0]
    exact extendRight_diag l l.length 0 (by omega) (by omega)
  · have hp := hinv.1.1 hz
    have hs : st.besti + st.bestsize ≤ l.length := by
      have := hp.2.2.1
      omega
    rw [← hbb]
    rw [extendLeft_diag l st.besti st.bestsize hs]
    exact extendRight_diag l l.length (st.besti + st.bestsize) hs (by omega)

theorem matchingBlocksAux_diag {α : Type} [DecidableEq α] (l : List α) :
    matchingBlocksAux l l 0 l.length 0 l.length =
      if l.length = 0 then [] else [(0, 0, l.length)] := by
  unfold matchingBlocksAux mbAux
  rw [flm_diag l]
  dsimp only
  by_cases hn : l.length = 0
  · rw [if_pos hn, if_pos hn]
  · rw [if_neg hn, if_neg hn]
    rw [if_neg (by omega : ¬(0 < 0 ∧ 0 < 0))]
    rw [if_neg (by omega : ¬(0 + l.length < l.length ∧ 0 + l.length < l.length))]
    rfl

theorem getMatchingBlocks_diag {α : Type} [DecidableEq α] (l : List α) :
    getMatchingBlocks l l =
      if l.length = 0 then [(0, 0, 0)]
      else [(0, 0, l.length), (l.length, l.length, 0)] := by
  unfold getMatchingBlocks
  rw [matchingBlocksAux_diag]
  by_cases hn : l.length = 0
  · rw [if_pos hn, if_pos hn, hn]
    rfl
  · rw [if_neg hn, if_neg hn]
    unfold mergeBlocksGo
    rw [if_pos ⟨rfl, rfl⟩]
    unfold mergeBlocksGo
    rw [if_pos (by omega : 0 + l.length ≠ 0)]
    rw [Nat.zero_add]
    rfl

theorem getOpcodes_diag {α : Type} [DecidableEq α] (l : List α) :
    getOpcodes l l =
      if l.length = 0 then [] else [(OpTag.equal, 0, l.length, 0, l.length)] := by
  unfold getOpcodes
  rw [getMatchingBlocks_diag]
  by_cases hn : l.length = 0
  · rw [if_pos hn, if_pos hn]
    rfl
  · rw [if_neg hn, if_neg hn]
    unfold opcodesGo
    rw [if_neg (by omega : ¬(0 < 0 ∧ 0 < 0))]
    rw [if_neg (by omega : ¬(0 < 0))]
    rw [if_pos hn]
    unfold opcodesGo
    rw [if_neg (by omega : ¬(0 + l.length < l.length ∧ 0 + l.length < l.length))]
    rw [if_neg (by omega : ¬(0 + l.length < l.length))]
    rw [if_neg (by decide : ¬((0 : ℕ) ≠ 0))]
    simp only [Nat.zero_add, Nat.add_zero]
    rw [show opcodesGo l.length l.length ([] : List (ℕ × ℕ × ℕ)) = [] from rfl]
    rw [if_neg (by omega : ¬(0 < 0))]
    rw [if_neg (by omega : ¬(l.length < l.length))]
    simp

theorem matchesCount_diag {α : Type} [DecidableEq α] (l : List α) :
    matchesCount l l = l.length := by
  unfold matchesCount
  rw [getMatchingBlocks_diag]
  by_cases hn : l.length = 0
  · rw [if_pos hn, hn]
    rfl
  · rw [if_neg hn]
    simp

theorem ratioQ_diag {α : Type} [DecidableEq α] (l : List α) : ratioQ l l = 1 := by
  unfold ratioQ
  by_cases hn : l.length + l.length = 0
  · rw [if_pos hn]
  · rw [if_neg hn]
    rw [matchesCount_diag]
    have hne : ((l.length : ℚ) + l.length) ≠ 0 := by
      have h1 : l.length ≠ 0 := by omega
      have h2 : ((l.length : ℚ)) ≠ 0 := Nat.cast_ne_zero.mpr h1
      intro h
      apply h2
      have h3 : (2 : ℚ) * l.length = 0 := by
        rw [two_mul]
        exact h
      have h4 : (2 : ℚ) ≠ 0 := by norm_num
      exact (mul_eq_zero.mp h3).resolve_left h4
    rw [div_eq_one_iff_eq hne]
    ring

/-- Claim C2: when the hypothesis sequence equals the reference sequence,
every op in the returned details has status `match` and the score is 100. -/
theorem compare_phonemes_identical (x : List String) :
    ((compare_phonemes x x).details.all (fun op => op.status == OpStatus.matched)) = true ∧
      (compare_phonemes x x).score = 100 := by
  constructor
  · rw [show (compare_phonemes x x).details =
      (getOpcodes x x).flatMap (detailsOfOpcode x x) from rfl]
    rw [getOpcodes_diag]
    by_cases hn : x.length = 0
    · rw [if_pos hn]
      rfl
    · rw [if_neg hn]
      rw [show ([(OpTag.equal, 0, x.length, 0, x.length)].flatMap (detailsOfOpcode x x)) =
        detailsOfOpcode x x (OpTag.equal, 0, x.length, 0, x.length) by
          simp [List.flatMap_cons]]
      rw [show detailsOfOpcode x x (OpTag.equal, 0, x.length, 0, x.length) =
        (List.range (x.length - 0)).map (fun k =>
          { phoneme := x.getD (0 + k) "", status := OpStatus.matched,
            user := x.getD (0 + k) "" }) from rfl]
      rw [List.all_eq_true]
      intro op hop
      rcases List.mem_map.mp hop with ⟨k, _, rfl⟩
      rfl
  · rw [show (compare_phonemes x x).score = (⌊ratioQ x x * 100⌋).toNat from rfl]
    rw [ratioQ_diag, one_mul]
    rw [show ((100 : ℚ)) = ((100 : ℤ) : ℚ) by norm_num, Int.floor_intCast]
    rfl

/-! ## Recognizer (`RecognizerService.transcribe`, steps 6–9)

The acoustic front end (audio loading, model inference, steps 1–5) is an
external collaborator; the embedding starts from the `T×V` matrix of
per-frame probabilities.  Everything is in probability space: an entry `q : ℚ`
of a row stands for `exp` of the code's log-probability, `logaddexp` is `+`,
adding log-probabilities is `*`, `-inf` is `0`, and `x > -inf` is `0 < x`.
`torch` errors (`topk` with `k` larger than the dimension) and the NaN row
produced by `log_softmax` on an all-`-inf` row are modelled as `none`. -/

/-- A stable insertion step: `x` is placed before the first element that is
not `lt`-before it, keeping the original order of equal keys (this is the
stability guarantee of Python's `sorted` and of `torch.topk`). -/
def insertBy {β : Type} (lt : β → β → Bool) (x : β) : List β → List β
  | [] => [x]
  | y :: ys => if lt y x then y :: insertBy lt x ys else x :: y :: ys

/-- Stable sort (insertion sort on the reversed fold): `y` comes before `x`
in the result whenever `lt y x`; elements unordered by `lt` keep their
original relative order. -/
def sortBy {β : Type} (lt : β → β → Bool) (l : List β) : List β :=
  l.foldr (insertBy lt) []

/-- `torch.topk(row, k)`: the `k` largest entries as `(index, value)` pairs,
values descending, ties by ascending index. -/
def topkIdx (row : List ℚ) (k : ℕ) : List (ℕ × ℚ) :=
  (sortBy (fun y x => decide (x.2 < y.2))
    ((List.range row.length).map (fun i => (i, row.getD i 0)))).take k

/-- One trace segment of a beam entry: `{"p_id": ..., "frames": [...]}`. -/
structure SegTrace where
  pId : ℕ
  frames : List ℕ
  deriving DecidableEq

/-- One beam entry value: blank mass `b`, non-blank mass `nb` (probability
space) and the open segment trace. -/
structure BeamState where
  b : ℚ
  nb : ℚ
  segs : List SegTrace
  deriving DecidableEq

/-- The value a `defaultdict` entry starts from:
`{"b": -inf, "nb": -inf, "segs": []}` (in probability space both masses 0);
the initial beam uses `b = exp 0 = 1` instead. -/
def defaultBeamState : BeamState := { b := 0, nb := 0, segs := [] }

/-- A beam: association list keyed by collapsed prefix, in insertion order
(Python `dict` preserves first-touch order). -/
abbrev Beam := List (List ℕ × BeamState)

/-- Lookup of a prefix in a beam. -/
def blookup (beam : Beam) (p : List ℕ) : Option BeamState :=
  (beam.find? (fun e => e.1 == p)).map Prod.snd

/-- Lookup with the `defaultdict` default. -/
def blookupD (beam : Beam) (p : List ℕ) : BeamState :=
  (blookup beam p).getD defaultBeamState

/-- `new_beam[p]` access-and-mutate: inserts the default on first touch (at
the end, preserving insertion order) and applies the mutation `f`. -/
def bupsert (beam : Beam) (p : List ℕ) (f : BeamState → BeamState) : Beam :=
  match beam with
  | [] => [(p, f defaultBeamState)]
  | (q, st) :: rest =>
    if q = p then (q, f st) :: rest else (q, st) :: bupsert rest p f

/-- Python's segment-frame extension: copy the list, appending frame `t` to
the last segment. -/
def extendLastSeg (segs : List SegTrace) (t : ℕ) : List SegTrace :=
  match segs with
  | [] => []
  | [s] => [⟨s.pId, s.frames ++ [t]⟩]
  | s :: rest => s :: extendLastSeg rest t

/-- The body of the inner candidate loop (`for i in range(len(top_idx))`):
skip the blank candidate, otherwise the CTC repeat / new-character updates
of the non-blank mass, with the segment trace written only on the first
touch of the extended prefix. -/
def candStep (blank t : ℕ) (state : BeamState) (pfx : List ℕ)
    (acc : Beam) (c : ℕ × ℚ) : Beam :=
  if c.1 = blank then acc
  else if pfx.getLast? = some c.1 then
    bupsert (bupsert acc pfx (fun s => { s with nb := s.nb + state.nb * c.2 }))
      (pfx ++ [c.1]) (fun s =>
        { s with
          nb := s.nb + state.b * c.2
          segs := if s.segs.isEmpty then state.segs ++ [⟨c.1, [t]⟩] else s.segs })
  else
    bupsert acc (pfx ++ [c.1]) (fun s =>
      { s with
        nb := s.nb + (state.b + state.nb) * c.2
        segs := if s.segs.isEmpty then state.segs ++ [⟨c.1, [t]⟩] else s.segs })

/-- Processing of one surviving beam entry at frame `t`: the blank update,
the per-candidate non-blank updates, then the frame tracking of the
continuing-sound path — in the statement order of the Python loop body. -/
def processEntry (blank t : ℕ) (pβ : ℚ) (cands : List (ℕ × ℚ)) (acc : Beam)
    (entry : List ℕ × BeamState) : Beam :=
  let pfx := entry.1
  let state := entry.2
  let acc1 := bupsert acc pfx (fun s =>
    { s with b := s.b + (state.b + state.nb) * pβ, segs := state.segs })
  let acc2 := cands.foldl (candStep blank t state pfx) acc1
  if state.segs ≠ [] ∧ 0 < state.nb then
    bupsert acc2 pfx (fun s => { s with segs := extendLastSeg state.segs t })
  else acc2

/-- One frame of the beam search: fold all transitions of all surviving
entries into a fresh `defaultdict`. -/
def stepBeam (blank K t : ℕ) (row : List ℚ) (beam : Beam) : Beam :=
  let pβ := row.getD blank 0
  let cands := topkIdx row K
  beam.foldl (processEntry blank t pβ cands) []

/-- Sort by total mass descending (stable, like Python's `sorted` with
`reverse=True`) and keep the top `beam_width` entries. -/
def pruneBeam (w : ℕ) (beam : Beam) : Beam :=
  (sortBy (fun y x => decide ((x.2.b + x.2.nb) < (y.2.b + y.2.nb))) beam).take w

/-- The full beam-search loop over all frames, from the initial single empty
prefix with `b = exp 0 = 1`. -/
def decodeBeam (blank K w : ℕ) (rows : List (List ℚ)) : Beam :=
  rows.enum.foldl (fun beam p => pruneBeam w (stepBeam blank K p.1 p.2 beam))
    [([], { b := 1, nb := 0, segs := [] })]

/-! ### Probability refiner (step 6 of `transcribe`) -/

/-- One frame of the probabilistic biasing & suppression loop, in
probability space.  `boostFactor` stands for `exp(phoneme_boost)` (an
additive log-space boost is a multiplicative factor here).  `none` models
the NaN row that `log_softmax` produces when every kept entry has zero mass
(the renormalization denominator is 0), and the `torch.topk(k=5)` error on a
row narrower than 5. -/
def refineFrame (blank : ℕ) (θ boostFactor : ℚ) (expectedIds : List ℕ)
    (row : List ℚ) : Option (List ℚ) :=
  if row.length < 5 then none
  else
    let top5 := topkIdx row 5
    let maxProb := (top5.headD (0, 0)).2
    let row1 : Option (List ℚ) :=
      if maxProb < θ then
        let keep := (top5.take 2).map Prod.fst
        let masked := (List.range row.length).map (fun i =>
          if i ∈ keep ∨ i = blank then row.getD i 0 else 0)
        let s := masked.sum
        if s = 0 then none else some (masked.map (· / s))
      else some row
    match row1 with
    | none => none
    | some r =>
      some (expectedIds.foldl (fun r tid =>
        if tid ∈ (top5.take 3).map Prod.fst then r.set tid (r.getD tid 0 * boostFactor)
        else r) r)

/-! ### Segment extraction (steps 8–9 of `transcribe`) -/

/-- `np.median` on rationals: sort ascending, middle element, or the mean of
the two middle elements for even length. -/
def medianQ (l : List ℚ) : ℚ :=
  let sv := sortBy (fun y x => decide (y < x)) l
  let n := l.length
  if n = 0 then 0
  else if n % 2 = 1 then sv.getD (n / 2) 0
  else (sv.getD (n / 2 - 1) 0 + sv.getD (n / 2) 0) / 2

/-- Python `int()` on a rational: truncation toward zero. -/
def pyInt (q : ℚ) : ℤ := if 0 ≤ q then ⌊q⌋ else ⌈q⌉

/-- One returned segment record.  The code's `log_confidence` field
(`log(confidence + 1e-12)`, a strictly monotone real-valued function of
`confidence`) is omitted from the embedding: no claim refers to it and `log`
has no exact rational representation. -/
structure FinalSeg where
  phoneme : String
  start_ms : ℤ
  end_ms : ℤ
  confidence : ℚ
  num_frames : ℕ
  deriving DecidableEq

/-- Post-processing of the winning beam's trace: minimum-duration filter,
median confidence from the original (pre-refinement) probabilities, token
decoding through the normalizer, and frame→millisecond conversion. -/
def extractSegs (origRows : List (List ℚ)) (vocabTokens : List String)
    (mpf offset : ℚ) (minDur : ℤ) (segs : List SegTrace) : List FinalSeg :=
  segs.filterMap (fun seg =>
    let frames := seg.frames
    if (frames.length : ℚ) * mpf < (minDur : ℚ) then none
    else
      let frameProbs := frames.map (fun f => (origRows.getD f []).getD seg.pId 0)
      let conf := medianQ frameProbs
      let token := vocabTokens.getD seg.pId ""
      match normalize_ipa_sequence [token] with
      | [] => none
      | ph :: _ =>
        some { phoneme := ph
               start_ms := pyInt (offset + (frames.headD 0 : ℚ) * mpf)
               end_ms := pyInt (offset + ((frames.getLastD 0 : ℚ) + 1) * mpf)
               confidence := conf
               num_frames := frames.length })

/-- Steps 6–9 of `RecognizerService.transcribe` on an already-materialized
`T×V` probability matrix: refine every row, beam-search decode, and extract
the winning entry's segments.  `none` models the places where the Python
code would raise (`torch.topk` with too large `k`, NaN rows, indexing an
empty beam). -/
def transcribeCore (blank : ℕ) (vocabTokens : List String) (expected : List String)
    (θ boostFactor : ℚ) (beamWidth : ℕ) (minDur : ℤ) (mpf offset : ℚ)
    (rows : List (List ℚ)) : Option (List FinalSeg) :=
  let expectedIds := expected.filterMap (fun p => vocabTokens.findIdx? (fun s => s == p))
  match rows.mapM (refineFrame blank θ boostFactor expectedIds) with
  | none => none
  | some refined =>
    let K := min 20 (beamWidth * 2)
    if refined.any (fun r => decide (r.length < K)) then none
    else
      match decodeBeam blank K beamWidth refined with
      | [] => none
      | (_, best) :: _ => some (extractSegs rows vocabTokens mpf offset minDur best.segs)

/-- Steps 5–9 of `RecognizerService.transcribe`: the dynamic frame
calculation `ms_per_frame = (len(audio) / sample_rate) / num_frames * 1000`
and `offset_ms = (orig_start_idx / sample_rate) * 1000`, then the refine /
decode / extract pipeline.  Python raises `ZeroDivisionError` when
`sample_rate` is `0` and — crucially — when `num_frames` is `0`, before any
decoding happens; both raises are modelled as `none`. -/
def transcribe (blank : ℕ) (vocabTokens : List String) (expected : List String)
    (θ boostFactor : ℚ) (beamWidth : ℕ) (minDur : ℤ)
    (audioLen sampleRate origStartIdx : ℚ)
    (rows : List (List ℚ)) : Option (List FinalSeg) :=
  if sampleRate = 0 then none
  else if rows.length = 0 then none
  else
    let mpf := audioLen / sampleRate / (rows.length : ℚ) * 1000
    let offset := origStartIdx / sampleRate * 1000
    transcribeCore blank vocabTokens expected θ boostFactor beamWidth minDur
      mpf offset rows

theorem insertBy_mem {β : Type} (lt : β → β → Bool) (x : β) :
    ∀ (l : List β) (z : β), z ∈ insertBy lt x l ↔ z = x ∨ z ∈ l := by
  intro l
  induction l with
  | nil => intro z; simp [insertBy]
  | cons y ys ih =>
    intro z
    unfold insertBy
    by_cases h : lt y x
    · rw [if_pos h]
      simp only [List.mem_cons, ih]
      tauto
    · rw [if_neg h]
      simp only [List.mem_cons]

theorem sortBy_mem {β : Type} (lt : β → β → Bool) :
    ∀ (l : List β) (z : β), z ∈ sortBy lt l ↔ z ∈ l := by
  intro l
  induction l with
  | nil => intro z; exact Iff.rfl
  | cons y ys ih =>
    intro z
    show z ∈ insertBy lt y (sortBy lt ys) ↔ _
    rw [insertBy_mem, ih]
    simp

theorem insertBy_ne_nil {β : Type} (lt : β → β → Bool) (x : β) (l : List β) :
    insertBy lt x l ≠ [] := by
  cases l with
  | nil => simp [insertBy]
  | cons y ys =>
    unfold insertBy
    by_cases h : lt y x
    · rw [if_pos h]; simp
    · rw [if_neg h]; simp

theorem sortBy_headD_ge (key : ℕ × ℚ → ℚ) :
    ∀ (l : List (ℕ × ℚ)) (d : ℕ × ℚ) (x : ℕ × ℚ), x ∈ l →
      key x ≤ key ((sortBy (fun y x => decide (key x < key y)) l).headD d) := by
  intro l
  induction l with
  | nil => intro d x hx; exact absurd hx (List.not_mem_nil x)
  | cons a l ih =>
    intro d x hx
    show key x ≤ key ((insertBy _ a (sortBy _ l)).headD d)
    cases hs : sortBy (fun y x => decide (key x < key y)) l with
    | nil =>
      have hl : l = [] := by
        cases l with
        | nil => rfl
        | cons b bs => exact absurd hs (insertBy_ne_nil _ b _)
      subst hl
      have hxa : x = a := by simpa using hx
      subst hxa
      simp [insertBy]
    | cons y ys =>
      unfold insertBy
      by_cases h : decide (key a < key y) = true
      · rw [if_pos h]
        simp only [List.headD_cons]
        rcases List.mem_cons.mp hx with rfl | hx'
        · have := of_decide_eq_true h
          have hy : ((y :: ys).headD d) = y := rfl
          calc key x ≤ key y := le_of_lt this
            _ = key ((y :: ys).headD d) := by rw [hy]
            _ = key y := by rw [hy]
        · have := ih d x hx'
          rw [hs] at this
          simpa using this
      · rw [if_neg h]
        simp only [List.headD_cons]
        have hya : key y ≤ key a :=
          le_of_not_lt (fun hc => h (decide_eq_true hc))
        rcases List.mem_cons.mp hx with rfl | hx'
        · exact le_refl _
        · have := ih d x hx'
          rw [hs] at this
          simp only [List.headD_cons] at this
          exact le_trans this hya

/-- Claim C3 (counterexample): `transcribe` performs no width validation at
all — a frame matrix whose row width (6) differs from the vocabulary size
(5) is decoded without any error — and a zero-frame input yields the
`ZeroDivisionError` of the `ms_per_frame` computation (modelled `none`),
not an empty segment list. -/
theorem transcribe_no_width_check_counterexample :
    (([[1/10, 8/10, 4/100, 3/100, 2/100, 1/100]] : List (List ℚ)).all
        (fun r => r.length != (["<pad>", "a", "b", "c", "d"] : List String).length)) = true
    ∧ (transcribe 0 ["<pad>", "a", "b", "c", "d"] [] 0 1 1 0 320 16000 0
        [[1/10, 8/10, 4/100, 3/100, 2/100, 1/100]]).isSome = true
    ∧ ¬ transcribe 0 ["<pad>", "a", "b", "c", "d"] [] 0 1 1 0 320 16000 0 []
        = some [] := by
  refine ⟨by with_unfolding_all decide, by with_unfolding_all decide, ?_⟩
  with_unfolding_all decide

/-- Claim C3 (amended): `transcribe` never validates the row width of the
frame matrix against the vocabulary size (no `InvalidInput` is raised
anywhere), and when the number of frames `T` is `0` it raises
`ZeroDivisionError` while computing `ms_per_frame` — before any decoding —
rather than returning an empty segment list. -/
theorem transcribe_zero_frames_none (blank : ℕ) (vocabTokens expected : List String)
    (θ bf : ℚ) (w : ℕ) (minDur : ℤ) (aLen sr o : ℚ) (hsr : sr ≠ 0) :
    transcribe blank vocabTokens expected θ bf w minDur aLen sr o [] = none := by
  unfold transcribe
  rw [if_neg hsr]
  rfl

/-- Witness for `transcribe_zero_frames_none` at a concrete sample rate. -/
theorem transcribe_zero_frames_none_witness :
    (16000 : ℚ) ≠ 0 ∧ transcribe 0 [] [] 0 1 1 0 0 16000 0 [] = none :=
  ⟨by norm_num, transcribe_zero_frames_none 0 [] [] 0 1 1 0 0 16000 0 (by norm_num)⟩

theorem headD_take {β : Type} (s : List β) (d : β) (k : ℕ) :
    ((s.take (k + 1)).headD d) = s.headD d := by
  cases s <;> rfl

theorem sortBy_ne_nil {β : Type} (lt : β → β → Bool) (l : List β) (hl : l ≠ []) :
    sortBy lt l ≠ [] := by
  cases l with
  | nil => exact absurd rfl hl
  | cons a t => exact insertBy_ne_nil lt a (sortBy lt t)

theorem headD_mem {β : Type} (s : List β) (d : β) (hs : s ≠ []) : s.headD d ∈ s := by
  cases s with
  | nil => exact absurd rfl hs
  | cons a t => exact List.mem_cons_self a t

theorem headD_mem_take {β : Type} (s : List β) (d : β) (k : ℕ) (hs : s ≠ []) :
    s.headD d ∈ s.take (k + 1) := by
  cases s with
  | nil => exact absurd rfl hs
  | cons a t =>
    rw [List.take_succ_cons]
    exact List.mem_cons_self a _

theorem getD_nonneg (row : List ℚ) (hnn : ∀ q ∈ row, 0 ≤ q) (i : ℕ) :
    0 ≤ row.getD i 0 := by
  by_cases h : i < row.length
  · rw [List.getD_eq_getElem row 0 h]
    exact hnn _ (List.getElem_mem h)
  · rw [List.getD_eq_default row 0 (le_of_not_lt h)]

/-- Claim C5 (counterexample): on a suppressed frame whose kept entries all
have zero mass (all log-probabilities `-inf`), the refiner renormalizes by a
zero denominator and produces the NaN row (`none`): the row is not left
unmodified and suppression is not skipped. -/
theorem refineFrame_underflow_counterexample :
    refineFrame 0 (1/2) 1 [] [0, 0, 0, 0, 0] = none ∧
      ¬ refineFrame 0 (1/2) 1 [] [0, 0, 0, 0, 0] = some [0, 0, 0, 0, 0] := by
  refine ⟨by with_unfolding_all decide, ?_⟩
  with_unfolding_all decide

/-- Claim C5 (amended): the refiner has no underflow fallback — a fully
zero-mass suppressed frame becomes a NaN row (`none`,
`refineFrame_underflow_counterexample`) — but on every genuine probability
row (width ≥ 5, nonnegative entries, at least one positive) the
renormalization denominator is positive, so the refiner always returns a
row and never divides by zero. -/
theorem refineFrame_valid_isSome (blank : ℕ) (θ bf : ℚ) (eids : List ℕ)
    (row : List ℚ) (hlen : 5 ≤ row.length) (hnn : ∀ q ∈ row, 0 ≤ q)
    (hpos : ∃ q ∈ row, 0 < q) :
    (refineFrame blank θ bf eids row).isSome = true := by
  have h5 : ¬ row.length < 5 := by omega
  set SP := sortBy (fun y x : ℕ × ℚ => decide (x.2 < y.2))
    ((List.range row.length).map (fun i => (i, row.getD i 0))) with hSP
  have hrne : (List.range row.length).map (fun i => (i, row.getD i 0)) ≠ [] := by
    have hlm : ((List.range row.length).map (fun i => (i, row.getD i 0))).length
        = row.length := by simp
    intro hc
    rw [hc] at hlm
    simp at hlm
    omega
  have hne : SP ≠ [] := sortBy_ne_nil _ _ hrne
  have htop : topkIdx row 5 = SP.take 5 := by rw [hSP]; rfl
  have hhdm : SP.headD (0, 0) ∈ SP := headD_mem _ _ hne
  have hhdr : SP.headD (0, 0) ∈
      (List.range row.length).map (fun i => (i, row.getD i 0)) := by
    have h2 : SP.headD (0, 0) ∈ sortBy (fun y x : ℕ × ℚ => decide (x.2 < y.2))
        ((List.range row.length).map (fun i => (i, row.getD i 0))) := by
      rw [← hSP]; exact hhdm
    exact (sortBy_mem _ _ _).mp h2
  obtain ⟨i0, hi0, hfi⟩ := List.mem_map.mp hhdr
  have hi0lt : i0 < row.length := List.mem_range.mp hi0
  have hd1 : (SP.headD (0, 0)).1 = i0 := by rw [← hfi]
  have hd2 : (SP.headD (0, 0)).2 = row.getD i0 0 := by rw [← hfi]
  -- the head of the sorted list is positive
  obtain ⟨q, hqm, hq0⟩ := hpos
  obtain ⟨j, hj, hgj⟩ := List.mem_iff_getElem.mp hqm
  have hjm : ((j, row.getD j 0) : ℕ × ℚ) ∈
      (List.range row.length).map (fun i => (i, row.getD i 0)) :=
    List.mem_map.mpr ⟨j, List.mem_range.mpr hj, rfl⟩
  have hmax : 0 < (SP.headD (0, 0)).2 := by
    have := sortBy_headD_ge Prod.snd _ (0, 0) (j, row.getD j 0) hjm
    rw [← hSP] at this
    have hq : row.getD j 0 = q := by rw [List.getD_eq_getElem row 0 hj, hgj]
    rw [hq] at this
    exact lt_of_lt_of_le hq0 this
  have hmaxProb : ((topkIdx row 5).headD (0, 0)).2 = (SP.headD (0, 0)).2 := by
    rw [htop, show SP.take 5 = SP.take (4 + 1) from rfl, headD_take]
  simp only [refineFrame]
  rw [if_neg h5, hmaxProb]
  by_cases hθ : (SP.headD (0, 0)).2 < θ
  · rw [if_pos hθ]
    have hkeep : (SP.headD (0, 0)).1 ∈ ((topkIdx row 5).take 2).map Prod.fst := by
      rw [htop, List.take_take]
      rw [show min 2 5 = 1 + 1 from rfl]
      exact List.mem_map.mpr ⟨SP.headD (0, 0), headD_mem_take SP (0, 0) 1 hne, rfl⟩
    have hmem : row.getD i0 0 ∈ (List.range row.length).map (fun i =>
        if i ∈ ((topkIdx row 5).take 2).map Prod.fst ∨ i = blank
        then row.getD i 0 else 0) := by
      have : (if i0 ∈ ((topkIdx row 5).take 2).map Prod.fst ∨ i0 = blank
          then row.getD i0 0 else 0) ∈ (List.range row.length).map (fun i =>
          if i ∈ ((topkIdx row 5).take 2).map Prod.fst ∨ i = blank
          then row.getD i 0 else 0) :=
        List.mem_map.mpr ⟨i0, List.mem_range.mpr hi0lt, rfl⟩
      rwa [if_pos (Or.inl (hd1 ▸ hkeep))] at this
    have hnn' : ∀ x ∈ (List.range row.length).map (fun i =>
        if i ∈ ((topkIdx row 5).take 2).map Prod.fst ∨ i = blank
        then row.getD i 0 else 0), 0 ≤ x := by
      intro x hx
      obtain ⟨i, _, hfx⟩ := List.mem_map.mp hx
      rw [← hfx]
      split
      · exact getD_nonneg row hnn i
      · exact le_refl 0
    have hsum : 0 < ((List.range row.length).map (fun i =>
        if i ∈ ((topkIdx row 5).take 2).map Prod.fst ∨ i = blank
        then row.getD i 0 else 0)).sum := by
      have hle := List.single_le_sum hnn' _ hmem
      have : 0 < row.getD i0 0 := hd2 ▸ hmax
      exact lt_of_lt_of_le this hle
    rw [if_neg hsum.ne']
    rfl
  · rw [if_neg hθ]
    rfl

/-- Witness for `refineFrame_valid_isSome` at a concrete probability row. -/
theorem refineFrame_valid_isSome_witness :
    (5 ≤ ([1/2, 1/8, 1/8, 1/8, 1/8] : List ℚ).length
      ∧ (∀ q ∈ ([1/2, 1/8, 1/8, 1/8, 1/8] : List ℚ), 0 ≤ q)
      ∧ ∃ q ∈ ([1/2, 1/8, 1/8, 1/8, 1/8] : List ℚ), 0 < q)
    ∧ (refineFrame 0 (1/2) 1 [] [1/2, 1/8, 1/8, 1/8, 1/8]).isSome = true :=
  ⟨⟨by with_unfolding_all decide, by with_unfolding_all decide,
      ⟨1/2, by with_unfolding_all decide, by with_unfolding_all decide⟩⟩,
    refineFrame_valid_isSome 0 (1/2) 1 [] [1/2, 1/8, 1/8, 1/8, 1/8]
      (by with_unfolding_all decide) (by with_unfolding_all decide)
      ⟨1/2, by with_unfolding_all decide, by with_unfolding_all decide⟩⟩

theorem blookup_cons (q : List ℕ) (st : BeamState) (rest : Beam) (p : List ℕ) :
    blookup ((q, st) :: rest) p = if q = p then some st else blookup rest p := by
  by_cases h : q = p
  · rw [if_pos h]
    subst h
    simp [blookup, List.find?_cons]
  · rw [if_neg h]
    simp [blookup, List.find?_cons, h]

theorem blookupD_cons (q : List ℕ) (st : BeamState) (rest : Beam) (p : List ℕ) :
    blookupD ((q, st) :: rest) p = if q = p then st else blookupD rest p := by
  unfold blookupD
  rw [blookup_cons]
  by_cases h : q = p
  · rw [if_pos h, if_pos h]
    rfl
  · rw [if_neg h, if_neg h]

theorem blookupD_bupsert_self :
    ∀ (beam : Beam) (p : List ℕ) (f : BeamState → BeamState),
      blookupD (bupsert beam p f) p = f (blookupD beam p) := by
  intro beam
  induction beam with
  | nil =>
    intro p f
    show blookupD [(p, f defaultBeamState)] p = _
    rw [blookupD_cons, if_pos rfl]
    rfl
  | cons e rest ih =>
    intro p f
    obtain ⟨q, st⟩ := e
    show blookupD (if q = p then (q, f st) :: rest else (q, st) :: bupsert rest p f) p
      = f (blookupD ((q, st) :: rest) p)
    by_cases h : q = p
    · rw [if_pos h, blookupD_cons, if_pos h, blookupD_cons, if_pos h]
    · rw [if_neg h, blookupD_cons, if_neg h, blookupD_cons, if_neg h, ih]

theorem blookupD_bupsert_ne :
    ∀ (beam : Beam) (q p : List ℕ) (f : BeamState → BeamState), q ≠ p →
      blookupD (bupsert beam q f) p = blookupD beam p := by
  intro beam
  induction beam with
  | nil =>
    intro q p f h
    show blookupD [(q, f defaultBeamState)] p = blookupD [] p
    rw [blookupD_cons, if_neg h]
  | cons e rest ih =>
    intro q p f h
    obtain ⟨r, st⟩ := e
    show blookupD (if r = q then (r, f st) :: rest else (r, st) :: bupsert rest q f) p
      = blookupD ((r, st) :: rest) p
    by_cases hrq : r = q
    · subst hrq
      rw [if_pos rfl, blookupD_cons, if_neg h, blookupD_cons, if_neg h]
    · rw [if_neg hrq, blookupD_cons, blookupD_cons, ih _ _ _ h]

theorem append_singleton_ne (pfx : List ℕ) (x : ℕ) : pfx ++ [x] ≠ pfx := by
  intro hc
  have := congrArg List.length hc
  simp at this

theorem candStep_b_segs (blank t : ℕ) (state : BeamState) (pfx : List ℕ)
    (acc : Beam) (c : ℕ × ℚ) :
    (blookupD (candStep blank t state pfx acc c) pfx).b = (blookupD acc pfx).b
    ∧ (blookupD (candStep blank t state pfx acc c) pfx).segs
        = (blookupD acc pfx).segs := by
  unfold candStep
  by_cases h1 : c.1 = blank
  · rw [if_pos h1]
    exact ⟨rfl, rfl⟩
  · rw [if_neg h1]
    by_cases h2 : pfx.getLast? = some c.1
    · rw [if_pos h2]
      rw [blookupD_bupsert_ne _ _ _ _ (append_singleton_ne pfx c.1),
        blookupD_bupsert_self]
      exact ⟨rfl, rfl⟩
    · rw [if_neg h2]
      rw [blookupD_bupsert_ne _ _ _ _ (append_singleton_ne pfx c.1)]
      exact ⟨rfl, rfl⟩

theorem candFold_b_segs (blank t : ℕ) (state : BeamState) (pfx : List ℕ) :
    ∀ (cands : List (ℕ × ℚ)) (acc : Beam),
      (blookupD (cands.foldl (candStep blank t state pfx) acc) pfx).b
          = (blookupD acc pfx).b
      ∧ (blookupD (cands.foldl (candStep blank t state pfx) acc) pfx).segs
          = (blookupD acc pfx).segs := by
  intro cands
  induction cands with
  | nil => intro acc; exact ⟨rfl, rfl⟩
  | cons c cs ih =>
    intro acc
    have h1 := candStep_b_segs blank t state pfx acc c
    have h2 := ih (candStep blank t state pfx acc c)
    exact ⟨h2.1.trans h1.1, h2.2.trans h1.2⟩

set_option maxRecDepth 4000 in
/-- Claim C4 (counterexample): on this two-frame input three paths land on
prefix `[1]` at frame 1 — from parent `[]` with mass `(3/5)·(9/10) = 27/50`
and trace `[⟨1,[1]⟩]`, and from parent `[1]` with masses `(2/5)·(9/10)`
(repeat) and `(2/5)·(6/100)` (blank) — and although the masses do combine
additively (the `logaddexp` half of the claim), the merged entry keeps the
trace `[⟨1,[0,1]⟩]` of the `[1]` parent even though the `[]` parent's
contribution `27/50` strictly dominates the other two combined, whose
trace would have been `[⟨1,[1]⟩]`. -/
theorem beam_merge_trace_counterexample :
    blookupD (decodeBeam 0 4 2 [[6/10, 4/10]]) [] = ⟨3/5, 0, []⟩
    ∧ blookupD (decodeBeam 0 4 2 [[6/10, 4/10]]) [1] = ⟨0, 2/5, [⟨1, [0]⟩]⟩
    ∧ (2/5 : ℚ) * (9/10) + (2/5) * (6/100) < (3/5 + 0) * (9/10)
    ∧ blookupD (decodeBeam 0 4 2 [[6/10, 4/10], [6/100, 9/10]]) [1]
        = ⟨(2/5) * (6/100), (3/5 + 0) * (9/10) + (2/5) * (9/10), [⟨1, [0, 1]⟩]⟩
    ∧ [SegTrace.mk 1 [0, 1]] ≠ ([] : List SegTrace) ++ [⟨1, [1]⟩] := by
  have h1 : decodeBeam 0 4 2 [[6/10, 4/10]]
      = [([], ⟨3/5, 0, []⟩), ([1], ⟨0, 2/5, [⟨1, [0]⟩]⟩)] := by
    with_unfolding_all decide
  have hsplit : decodeBeam 0 4 2 [[6/10, 4/10], [6/100, 9/10]]
      = pruneBeam 2 (stepBeam 0 4 1 [6/100, 9/10]
          (decodeBeam 0 4 2 [[6/10, 4/10]])) := rfl
  refine ⟨?_, ?_, by with_unfolding_all decide, ?_, by with_unfolding_all decide⟩
  · rw [h1]
    with_unfolding_all decide
  · rw [h1]
    with_unfolding_all decide
  · rw [hsplit, h1]
    with_unfolding_all decide

/-- Claim C4 (amended): when several transition paths land on the same
prefix within one frame their blank/non-blank masses do combine via
`logaddexp` (additively in probability space), but the merged entry's trace
is decided purely by write order, not by dominant probability: the blank
update overwrites the trace with the currently processed parent's own
trace, the frame-tracking step then overwrites it again with that parent's
extended trace whenever that parent has positive non-blank mass, and the
candidate updates never change the trace of an already-touched prefix.
In particular, after processing an entry `(pfx, state)`, the blank mass of
`pfx` has grown by exactly `(state.b + state.nb) · pβ` and its trace equals
`state`'s own (possibly extended) trace, whatever traces other paths wrote
before. -/
theorem processEntry_blank_mass_and_trace (blank t : ℕ) (pβ : ℚ)
    (cands : List (ℕ × ℚ)) (acc : Beam) (pfx : List ℕ) (state : BeamState) :
    (blookupD (processEntry blank t pβ cands acc (pfx, state)) pfx).b
        = (blookupD acc pfx).b + (state.b + state.nb) * pβ
    ∧ (blookupD (processEntry blank t pβ cands acc (pfx, state)) pfx).segs
        = (if state.segs ≠ [] ∧ 0 < state.nb then extendLastSeg state.segs t
           else state.segs) := by
  unfold processEntry
  dsimp only
  have hfold := candFold_b_segs blank t state pfx cands
    (bupsert acc pfx (fun s =>
      { s with b := s.b + (state.b + state.nb) * pβ, segs := state.segs }))
  by_cases htr : state.segs ≠ [] ∧ 0 < state.nb
  · rw [if_pos htr, if_pos htr, blookupD_bupsert_self]
    constructor
    · show (blookupD (cands.foldl (candStep blank t state pfx)
        (bupsert acc pfx (fun s =>
          { s with b := s.b + (state.b + state.nb) * pβ, segs := state.segs }))) pfx).b = _
      rw [hfold.1, blookupD_bupsert_self]
    · rfl
  · rw [if_neg htr, if_neg htr]
    constructor
    · rw [hfold.1, blookupD_bupsert_self]
    · rw [hfold.2, blookupD_bupsert_self]

/-- `best_beam = beams[0]` after the final per-frame prune, with total mass
`logaddexp(b, nb)` (a sum in probability space); `K = min(20, 2·beam_width)`
exactly as the code couples the candidate count to the beam width. -/
def bestTotal (w : ℕ) (rows : List (List ℚ)) : ℚ :=
  match decodeBeam 0 (min 20 (w * 2)) w rows with
  | [] => 0
  | (_, st) :: _ => st.b + st.nb

set_option maxRecDepth 4000 in
/-- Claim C9 (counterexample): on this three-frame input — every row a
genuine probability distribution summing to 1 — the best final entry of the
`beam_width = 1` decode has total mass `315/2048`, strictly more than the
`273/2048` reached with `beam_width = 2`: widening the beam (which also
widens the candidate set `K = 2·beam_width`) steers the search to a worse
winning path, so the claimed monotonicity fails. -/
theorem beam_width_monotonicity_counterexample :
    (([[3/16, 5/16, 7/16, 1/16], [1/4, 3/8, 1/8, 1/4],
        [1/8, 13/16, 0, 1/16]] : List (List ℚ)).all (fun r => r.sum == 1)) = true
    ∧ (1 : ℕ) < 2
    ∧ bestTotal 2 [[3/16, 5/16, 7/16, 1/16], [1/4, 3/8, 1/8, 1/4],
        [1/8, 13/16, 0, 1/16]]
      < bestTotal 1 [[3/16, 5/16, 7/16, 1/16], [1/4, 3/8, 1/8, 1/4],
        [1/8, 13/16, 0, 1/16]] := by
  have h1 : bestTotal 1 [[3/16, 5/16, 7/16, 1/16], [1/4, 3/8, 1/8, 1/4],
      [1/8, 13/16, 0, 1/16]] = 315/2048 := by
    with_unfolding_all decide
  have h2 : bestTotal 2 [[3/16, 5/16, 7/16, 1/16], [1/4, 3/8, 1/8, 1/4],
      [1/8, 13/16, 0, 1/16]] = 273/2048 := by
    with_unfolding_all decide
  refine ⟨by with_unfolding_all decide, by decide, ?_⟩
  rw [h1, h2]
  with_unfolding_all decide

theorem head?_take {β : Type} (s : List β) (k : ℕ) :
    (s.take (k + 1)).head? = s.head? := by
  cases s <;> rfl

/-- Claim C9 (amended): within a single frame the pruning step is monotone
in the beam width — the top-`w1` entries are a prefix of the top-`w2`
entries of the same sorted fold, and the frame's best entry does not depend
on the width at all — but across frames the two searches diverge (the kept
entries and the candidate count `K = 2·beam_width` feed back into the next
fold), and the final best total can strictly decrease when the width grows
(`beam_width_monotonicity_counterexample`). -/
theorem pruneBeam_monotone (w1 w2 : ℕ) (h : w1 ≤ w2) (beam : Beam) :
    pruneBeam w1 beam <+: pruneBeam w2 beam
    ∧ (0 < w1 → (pruneBeam w1 beam).head? = (pruneBeam w2 beam).head?) := by
  constructor
  · show (sortBy _ beam).take w1 <+: (sortBy _ beam).take w2
    have hp := List.take_prefix w1
      ((sortBy (fun y x => decide ((x.2.b + x.2.nb) < (y.2.b + y.2.nb))) beam).take w2)
    rw [List.take_take, min_eq_left h] at hp
    exact hp
  · intro hw1
    obtain ⟨k1, rfl⟩ : ∃ k, w1 = k + 1 := ⟨w1 - 1, by omega⟩
    obtain ⟨k2, rfl⟩ : ∃ k, w2 = k + 1 := ⟨w2 - 1, by omega⟩
    show ((sortBy _ beam).take (k1 + 1)).head? = ((sortBy _ beam).take (k2 + 1)).head?
    rw [head?_take, head?_take]

/-- Witness for `pruneBeam_monotone` at concrete widths and beam. -/
theorem pruneBeam_monotone_witness :
    (1 ≤ 2 ∧ 0 < 1)
    ∧ (pruneBeam 1 [([1], ⟨0, 1/2, []⟩), ([2], ⟨1/4, 0, []⟩)]
        <+: pruneBeam 2 [([1], ⟨0, 1/2, []⟩), ([2], ⟨1/4, 0, []⟩)]
      ∧ (pruneBeam 1 [([1], ⟨0, 1/2, []⟩), ([2], ⟨1/4, 0, []⟩)]).head?
        = (pruneBeam 2 [([1], ⟨0, 1/2, []⟩), ([2], ⟨1/4, 0, []⟩)]).head?) :=
  ⟨⟨by decide, by decide⟩,
    ⟨(pruneBeam_monotone 1 2 (by decide) [([1], ⟨0, 1/2, []⟩), ([2], ⟨1/4, 0, []⟩)]).1,
     (pruneBeam_monotone 1 2 (by decide) [([1], ⟨0, 1/2, []⟩), ([2], ⟨1/4, 0, []⟩)]).2
       (by decide)⟩⟩

/-- Well-formedness of a segment trace at frame `t`: every segment's frame
list is strictly increasing and mentions only frames before `t`. -/
def SegsWF (t : ℕ) (segs : List SegTrace) : Prop :=
  ∀ sg ∈ segs, sg.frames.Chain' (· < ·) ∧ ∀ f ∈ sg.frames, f < t

theorem SegsWF_mono {t t' : ℕ} (h : t ≤ t') {segs : List SegTrace}
    (hwf : SegsWF t segs) : SegsWF t' segs := by
  intro sg hsg
  exact ⟨(hwf sg hsg).1, fun f hf => lt_of_lt_of_le ((hwf sg hsg).2 f hf) h⟩

theorem SegsWF_append {t : ℕ} {a b : List SegTrace}
    (ha : SegsWF t a) (hb : SegsWF t b) : SegsWF t (a ++ b) := by
  intro sg hsg
  rcases List.mem_append.mp hsg with h | h
  · exact ha sg h
  · exact hb sg h

theorem SegsWF_new (t c : ℕ) : SegsWF (t + 1) [⟨c, [t]⟩] := by
  intro sg hsg
  have : sg = ⟨c, [t]⟩ := by simpa using hsg
  subst this
  exact ⟨List.chain'_singleton t, fun f hf => by simp at hf; omega⟩

theorem extendLastSeg_WF {t : ℕ} :
    ∀ (segs : List SegTrace), SegsWF t segs → SegsWF (t + 1) (extendLastSeg segs t) := by
  intro segs
  induction segs with
  | nil => intro _; intro sg hsg; exact absurd hsg (List.not_mem_nil sg)
  | cons s rest ih =>
    intro hwf
    cases rest with
    | nil =>
      intro sg hsg
      have hsg' : sg = ⟨s.pId, s.frames ++ [t]⟩ := by
        simpa [extendLastSeg] using hsg
      subst hsg'
      have hs := hwf s (List.mem_cons_self s [])
      constructor
      · rw [List.chain'_append]
        refine ⟨hs.1, List.chain'_singleton t, ?_⟩
        intro x hx y hy
        have hxm : x ∈ s.frames := List.mem_of_mem_getLast? hx
        have hym : t = y := by simpa using hy
        subst hym
        exact hs.2 x hxm
      · intro f hf
        rcases List.mem_append.mp hf with h | h
        · exact lt_of_lt_of_le (hs.2 f h) (Nat.le_succ t)
        · have : f = t := by simpa using h
          omega
    | cons s2 r2 =>
      intro sg hsg
      have hshape : extendLastSeg (s :: s2 :: r2) t
          = s :: extendLastSeg (s2 :: r2) t := rfl
      rw [hshape] at hsg
      rcases List.mem_cons.mp hsg with rfl | h
      · have hs := hwf sg (List.mem_cons_self sg _)
        exact ⟨hs.1, fun f hf => lt_of_lt_of_le (hs.2 f hf) (Nat.le_succ t)⟩
      · have hrest : SegsWF t (s2 :: r2) := by
          intro sg' hsg'
          exact hwf sg' (List.mem_cons_of_mem s hsg')
        exact ih hrest sg h

theorem bupsert_forall (P : BeamState → Prop) :
    ∀ (beam : Beam) (p : List ℕ) (f : BeamState → BeamState),
      (∀ e ∈ beam, P e.2) → (∀ s, P s → P (f s)) → P defaultBeamState →
      ∀ e ∈ bupsert beam p f, P e.2 := by
  intro beam
  induction beam with
  | nil =>
    intro p f _ hf hd e he
    have : e = (p, f defaultBeamState) := by simpa [bupsert] using he
    subst this
    exact hf _ hd
  | cons qst rest ih =>
    intro p f hb hf hd e he
    obtain ⟨q, st⟩ := qst
    rw [show bupsert ((q, st) :: rest) p f
        = if q = p then (q, f st) :: rest else (q, st) :: bupsert rest p f from rfl] at he
    by_cases h : q = p
    · rw [if_pos h] at he
      rcases List.mem_cons.mp he with rfl | h'
      · exact hf st (hb (q, st) (List.mem_cons_self _ _))
      · exact hb e (List.mem_cons_of_mem _ h')
    · rw [if_neg h] at he
      rcases List.mem_cons.mp he with rfl | h'
      · exact hb (q, st) (List.mem_cons_self _ _)
      · exact ih p f (fun e' he' => hb e' (List.mem_cons_of_mem _ he')) hf hd e h'

theorem candStep_WF (blank t : ℕ) (state : BeamState) (pfx : List ℕ) (c : ℕ × ℚ)
    (hstate : SegsWF t state.segs) (acc : Beam)
    (hacc : ∀ e ∈ acc, SegsWF (t + 1) e.2.segs) :
    ∀ e ∈ candStep blank t state pfx acc c, SegsWF (t + 1) e.2.segs := by
  unfold candStep
  by_cases h1 : c.1 = blank
  · rw [if_pos h1]; exact hacc
  · rw [if_neg h1]
    have hwrite : ∀ s : BeamState, SegsWF (t + 1) s.segs →
        SegsWF (t + 1) (if s.segs.isEmpty then state.segs ++ [⟨c.1, [t]⟩] else s.segs) := by
      intro s hs
      split
      · exact SegsWF_append (SegsWF_mono (Nat.le_succ t) hstate) (SegsWF_new t c.1)
      · exact hs
    have hdef : SegsWF (t + 1) defaultBeamState.segs := by
      intro sg hsg
      exact absurd hsg (List.not_mem_nil sg)
    by_cases h2 : pfx.getLast? = some c.1
    · rw [if_pos h2]
      refine bupsert_forall (fun s => SegsWF (t + 1) s.segs) _ _ _ ?_ ?_ hdef
      · refine bupsert_forall (fun s => SegsWF (t + 1) s.segs) _ _ _ hacc ?_ hdef
        intro s hs
        exact hs
      · intro s hs
        exact hwrite s hs
    · rw [if_neg h2]
      refine bupsert_forall (fun s => SegsWF (t + 1) s.segs) _ _ _ hacc ?_ hdef
      intro s hs
      exact hwrite s hs

theorem candFold_WF (blank t : ℕ) (state : BeamState) (pfx : List ℕ)
    (hstate : SegsWF t state.segs) :
    ∀ (cands : List (ℕ × ℚ)) (acc : Beam),
      (∀ e ∈ acc, SegsWF (t + 1) e.2.segs) →
      ∀ e ∈ cands.foldl (candStep blank t state pfx) acc, SegsWF (t + 1) e.2.segs := by
  intro cands
  induction cands with
  | nil => intro acc hacc; exact hacc
  | cons c cs ih =>
    intro acc hacc
    exact ih _ (candStep_WF blank t state pfx c hstate acc hacc)

theorem processEntry_WF (blank t : ℕ) (pβ : ℚ) (cands : List (ℕ × ℚ))
    (acc : Beam) (entry : List ℕ × BeamState)
    (hstate : SegsWF t entry.2.segs)
    (hacc : ∀ e ∈ acc, SegsWF (t + 1) e.2.segs) :
    ∀ e ∈ processEntry blank t pβ cands acc entry, SegsWF (t + 1) e.2.segs := by
  unfold processEntry
  dsimp only
  have hdef : SegsWF (t + 1) defaultBeamState.segs := by
    intro sg hsg
    exact absurd hsg (List.not_mem_nil sg)
  have hacc1 : ∀ e ∈ bupsert acc entry.1 (fun s =>
      { s with b := s.b + (entry.2.b + entry.2.nb) * pβ, segs := entry.2.segs }),
      SegsWF (t + 1) e.2.segs := by
    refine bupsert_forall (fun s => SegsWF (t + 1) s.segs) _ _ _ hacc ?_ hdef
    intro s _
    exact SegsWF_mono (Nat.le_succ t) hstate
  have hacc2 := candFold_WF blank t entry.2 entry.1 hstate cands _ hacc1
  split
  · refine bupsert_forall (fun s => SegsWF (t + 1) s.segs) _ _ _ hacc2 ?_ hdef
    intro s _
    exact extendLastSeg_WF entry.2.segs hstate
  · exact hacc2

theorem stepBeamFold_WF (blank t : ℕ) (pβ : ℚ) (cands : List (ℕ × ℚ)) :
    ∀ (entries : List (List ℕ × BeamState)) (acc : Beam),
      (∀ e ∈ entries, SegsWF t e.2.segs) →
      (∀ e ∈ acc, SegsWF (t + 1) e.2.segs) →
      ∀ e ∈ entries.foldl (processEntry blank t pβ cands) acc,
        SegsWF (t + 1) e.2.segs := by
  intro entries
  induction entries with
  | nil => intro acc _ hacc; exact hacc
  | cons en ens ih =>
    intro acc hens hacc
    exact ih _ (fun e he => hens e (List.mem_cons_of_mem en he))
      (processEntry_WF blank t pβ cands acc en
        (hens en (List.mem_cons_self en ens)) hacc)

theorem stepBeam_WF (blank K t : ℕ) (row : List ℚ) (beam : Beam)
    (hbeam : ∀ e ∈ beam, SegsWF t e.2.segs) :
    ∀ e ∈ stepBeam blank K t row beam, SegsWF (t + 1) e.2.segs := by
  unfold stepBeam
  exact stepBeamFold_WF blank t _ _ beam [] hbeam
    (fun e he => absurd he (List.not_mem_nil e))

theorem pruneBeam_subset (w : ℕ) (beam : Beam) :
    ∀ e ∈ pruneBeam w beam, e ∈ beam := by
  intro e he
  exact (sortBy_mem _ _ _).mp (List.take_subset _ _ he)

theorem decodeFold_WF (blank K w : ℕ) :
    ∀ (rows : List (List ℚ)) (n : ℕ) (beam : Beam),
      (∀ e ∈ beam, SegsWF n e.2.segs) →
      ∀ e ∈ (List.enumFrom n rows).foldl
          (fun beam p => pruneBeam w (stepBeam blank K p.1 p.2 beam)) beam,
        SegsWF (n + rows.length) e.2.segs := by
  intro rows
  induction rows with
  | nil =>
    intro n beam hbeam e he
    rw [show n + List.length [] = n from rfl]
    exact hbeam e he
  | cons r rs ih =>
    intro n beam hbeam e he
    have hshape : List.enumFrom n (r :: rs) = (n, r) :: List.enumFrom (n + 1) rs := rfl
    rw [hshape] at he
    have hnext : ∀ e ∈ pruneBeam w (stepBeam blank K n r beam),
        SegsWF (n + 1) e.2.segs := by
      intro e' he'
      exact stepBeam_WF blank K n r beam hbeam e' (pruneBeam_subset w _ e' he')
    have := ih (n + 1) _ hnext e he
    have harith : n + 1 + rs.length = n + (r :: rs).length := by
      simp [List.length_cons]
      omega
    rw [harith] at this
    exact this

theorem decodeBeam_WF (blank K w : ℕ) (rows : List (List ℚ)) :
    ∀ e ∈ decodeBeam blank K w rows, SegsWF rows.length e.2.segs := by
  intro e he
  have h0 : ∀ e ∈ ([([], { b := 1, nb := 0, segs := [] })] : Beam),
      SegsWF 0 e.2.segs := by
    intro e' he'
    have : e' = ([], { b := 1, nb := 0, segs := [] }) := by simpa using he'
    subst this
    intro sg hsg
    exact absurd hsg (List.not_mem_nil sg)
  have := decodeFold_WF blank K w rows 0 _ h0 e he
  rw [show (0 : ℕ) + rows.length = rows.length by omega] at this
  exact this

theorem frames_span : ∀ (frames : List ℕ), frames.Chain' (· < ·) →
    frames.headD 0 + frames.length ≤ frames.getLastD 0 + 1 := by
  intro frames
  induction frames with
  | nil => intro _; simp
  | cons a rest ih =>
    intro hch
    cases rest with
    | nil => simp
    | cons b r2 =>
      have h2 := List.chain'_cons.mp hch
      have ih2 := ih h2.2
      have hlast : (a :: b :: r2).getLastD 0 = (b :: r2).getLastD 0 := rfl
      simp only [List.headD_cons, List.length_cons] at ih2 ⊢
      rw [hlast]
      have hab : a < b := h2.1
      omega

theorem pyInt_eq_floor (q : ℚ) (h : 0 ≤ q) : pyInt q = ⌊q⌋ := if_pos h

theorem extractSegs_min_duration (origRows : List (List ℚ)) (vocab : List String)
    (mpf offset : ℚ) (minDur : ℤ) (segs : List SegTrace)
    (hmpf : 0 ≤ mpf) (hoff : 0 ≤ offset)
    (hwf : ∀ sg ∈ segs, sg.frames.Chain' (· < ·)) :
    ∀ fs ∈ extractSegs origRows vocab mpf offset minDur segs,
      minDur ≤ fs.end_ms - fs.start_ms
        ∧ (minDur : ℚ) ≤ (fs.num_frames : ℚ) * mpf := by
  intro fs hfs
  unfold extractSegs at hfs
  obtain ⟨sg, hsg, hf⟩ := List.mem_filterMap.mp hfs
  dsimp only at hf
  by_cases hdur : (sg.frames.length : ℚ) * mpf < (minDur : ℚ)
  · rw [if_pos hdur] at hf
    exact absurd hf (by simp)
  · rw [if_neg hdur] at hf
    cases hnorm : normalize_ipa_sequence [vocab.getD sg.pId ""] with
    | nil =>
      rw [hnorm] at hf
      exact absurd hf (by simp)
    | cons ph rest =>
      rw [hnorm] at hf
      have hfs' : fs = { phoneme := ph
                         start_ms := pyInt (offset + (sg.frames.headD 0 : ℚ) * mpf)
                         end_ms := pyInt (offset + ((sg.frames.getLastD 0 : ℚ) + 1) * mpf)
                         confidence := medianQ (sg.frames.map (fun f =>
                           (origRows.getD f []).getD sg.pId 0))
                         num_frames := sg.frames.length } := by
        exact (Option.some_inj.mp hf).symm
      have hdur' : (minDur : ℚ) ≤ (sg.frames.length : ℚ) * mpf := le_of_not_lt hdur
      have hspan := frames_span sg.frames (hwf sg hsg)
      constructor
      · rw [hfs']
        have h1 : (0 : ℚ) ≤ offset + (sg.frames.headD 0 : ℚ) * mpf := by
          have : (0 : ℚ) ≤ (sg.frames.headD 0 : ℚ) * mpf :=
            mul_nonneg (by positivity) hmpf
          linarith
        have h2 : (0 : ℚ) ≤ offset + ((sg.frames.getLastD 0 : ℚ) + 1) * mpf := by
          have : (0 : ℚ) ≤ ((sg.frames.getLastD 0 : ℚ) + 1) * mpf :=
            mul_nonneg (by positivity) hmpf
          linarith
        dsimp only
        rw [pyInt_eq_floor _ h1, pyInt_eq_floor _ h2]
        have hspanQ : (sg.frames.headD 0 : ℚ) + (sg.frames.length : ℚ)
            ≤ (sg.frames.getLastD 0 : ℚ) + 1 := by
          exact_mod_cast hspan
        have hmul : ((sg.frames.headD 0 : ℚ) + (sg.frames.length : ℚ)) * mpf
            ≤ ((sg.frames.getLastD 0 : ℚ) + 1) * mpf :=
          mul_le_mul_of_nonneg_right hspanQ hmpf
        have hkey : offset + (sg.frames.headD 0 : ℚ) * mpf + (minDur : ℚ)
            ≤ offset + ((sg.frames.getLastD 0 : ℚ) + 1) * mpf := by
          have := add_mul (sg.frames.headD 0 : ℚ) (sg.frames.length : ℚ) mpf
          nlinarith [hdur', hmul]
        have hfl := Int.floor_le_floor hkey
        rw [show offset + (sg.frames.headD 0 : ℚ) * mpf + (minDur : ℚ)
            = offset + (sg.frames.headD 0 : ℚ) * mpf + (minDur : ℤ) from rfl,
          Int.floor_add_int] at hfl
        omega
      · rw [hfs']
        exact hdur'

/-- Claim C6: every segment returned by the extractor satisfies
`end_ms − start_ms ≥ min_duration_ms` (for the nonnegative `ms_per_frame`
and `offset_ms` the code always produces), and every trace segment whose
duration `num_frames × ms_per_frame` falls below `min_duration_ms` is
dropped: each returned segment's own frame span satisfies
`min_duration_ms ≤ num_frames × ms_per_frame`. -/
theorem transcribe_min_duration (blank : ℕ) (vocab expected : List String)
    (θ bf : ℚ) (w : ℕ) (minDur : ℤ) (mpf offset : ℚ) (rows : List (List ℚ))
    (out : List FinalSeg) (hmpf : 0 ≤ mpf) (hoff : 0 ≤ offset)
    (hout : transcribeCore blank vocab expected θ bf w minDur mpf offset rows
      = some out) :
    ∀ fs ∈ out, minDur ≤ fs.end_ms - fs.start_ms
      ∧ (minDur : ℚ) ≤ (fs.num_frames : ℚ) * mpf := by
  unfold transcribeCore at hout
  dsimp only at hout
  cases hm : rows.mapM (refineFrame blank θ bf
      (expected.filterMap (fun p => vocab.findIdx? (fun s => s == p)))) with
  | none =>
    rw [hm] at hout
    exact absurd hout (by simp)
  | some refined =>
    rw [hm] at hout
    dsimp only at hout
    split at hout
    · exact absurd hout (by simp)
    · split at hout
      · exact absurd hout (by simp)
      · rename_i hany pfx0 best0 rest hd
        have hout' : extractSegs rows vocab mpf offset minDur best0.segs = out :=
          Option.some_inj.mp hout
        have hwf : ∀ sg ∈ best0.segs, sg.frames.Chain' (· < ·) := by
          intro sg hsg
          have hmem : ((pfx0, best0) : List ℕ × BeamState)
              ∈ decodeBeam blank (20 ⊓ (w * 2)) w refined := by
            rw [hd]
            exact List.mem_cons_self _ _
          exact (decodeBeam_WF blank (20 ⊓ (w * 2)) w refined _ hmem sg hsg).1
        rw [← hout']
        exact extractSegs_min_duration rows vocab mpf offset minDur best0.segs
          hmpf hoff hwf

/-- Witness for `transcribe_min_duration` at a concrete decode. -/
theorem transcribe_min_duration_witness :
    ((0 : ℚ) ≤ 20 ∧ (0 : ℚ) ≤ 0
      ∧ transcribeCore 0 ["<pad>", "a", "b", "c", "d"] [] 0 1 1 10 20 0
          [[1/10, 8/10, 4/100, 3/100, 2/100, 1/100]]
        = some [⟨"a", 0, 20, 4/5, 1⟩])
    ∧ ∀ fs ∈ [(⟨"a", 0, 20, 4/5, 1⟩ : FinalSeg)],
        (10 : ℤ) ≤ fs.end_ms - fs.start_ms
          ∧ ((10 : ℤ) : ℚ) ≤ (fs.num_frames : ℚ) * 20 :=
  ⟨⟨by norm_num, by norm_num, by with_unfolding_all decide⟩,
    transcribe_min_duration 0 ["<pad>", "a", "b", "c", "d"] [] 0 1 1 10 20 0
      [[1/10, 8/10, 4/100, 3/100, 2/100, 1/100]] [⟨"a", 0, 20, 4/5, 1⟩]
      (by norm_num) (by norm_num) (by with_unfolding_all decide)⟩
